import Mathlib

/-!
Shallow embedding of the nano-elastic core (analyzer, posting lists,
inverted index, schema validation, document JSON codec, segment store,
WAL, index manager) together with proofs about the spec's claims.

Strings processed by the analyzer are modelled as lists of characters
(`Str`); Go's byte-oriented length checks use the UTF-8 byte size of the
characters, so ASCII reasoning agrees with the source exactly.  Unicode
character classes beyond ASCII (Go's `unicode.IsLetter` tables) are out of
scope of the model; no claim depends on them.
-/

namespace NanoElastic

/-- Character strings as the analyzer sees them: a list of runes. -/
abbrev Str := List Char

/-- UTF-8 byte length of a rune string, matching Go's `len(string)`. -/
def strByteLen (s : Str) : Nat := (s.map Char.utf8Size).sum

/-- Go's `unicode.IsLetter(r) || unicode.IsDigit(r)` test used by the
tokenizer; modelled for the ASCII range. -/
def isLetterOrDigit (c : Char) : Bool := c.isAlpha || c.isDigit

/-- `Tokenizer.Tokenize`: lowercase, then accumulate runs of
letter-or-digit runes, emitting a token at each boundary. -/
def tokenizeAux (cs : List Char) (cur : List Char) : List Str :=
  match cs with
  | [] => if cur = [] then [] else [cur]
  | c :: rest =>
    if isLetterOrDigit c then
      tokenizeAux rest (cur ++ [c])
    else
      if cur = [] then tokenizeAux rest []
      else cur :: tokenizeAux rest []

def tokenize (text : Str) : List Str :=
  tokenizeAux (text.map Char.toLower) []

/-- `Tokenizer.TokenizeWithPositions`: as `tokenize` but each token
carries the byte offset (in the lowercased input) at which it began. -/
def tokenizeWithPosAux (cs : List Char) (i : Nat) (cur : List Char)
    (start : Nat) : List (Str × Nat) :=
  match cs with
  | [] => if cur = [] then [] else [(cur, start)]
  | c :: rest =>
    if isLetterOrDigit c then
      let start2 := if cur = [] then i else start
      tokenizeWithPosAux rest (i + c.utf8Size) (cur ++ [c]) start2
    else
      if cur = [] then tokenizeWithPosAux rest (i + c.utf8Size) [] start
      else (cur, start) :: tokenizeWithPosAux rest (i + c.utf8Size) [] start

def tokenizeWithPositions (text : Str) : List (Str × Nat) :=
  tokenizeWithPosAux (text.map Char.toLower) 0 [] 0

/-- The fixed stop-word set of the analyzer. -/
def stopWords : List Str :=
  (["a", "an", "and", "are", "as", "at", "be", "by", "for", "from",
    "has", "he", "in", "is", "it", "its", "of", "on", "that", "the",
    "to", "was", "were", "will", "with"]).map String.data

/-- `Analyzer` configuration (stop-word filtering, stemming). -/
structure Analyzer where
  useStopWords : Bool
  useStemming : Bool
deriving Repr, DecidableEq

/-- `NewAnalyzer`: stop words on, stemming off. -/
def newAnalyzer : Analyzer := { useStopWords := true, useStemming := false }

/-- `Analyzer.filterStopWords`. -/
def filterStopWords (tokens : List Str) : List Str :=
  tokens.filter (fun t => !(stopWords.contains t))

/-- `Analyzer.filterStopWordsWithPositions`. -/
def filterStopWordsWithPositions (tps : List (Str × Nat)) : List (Str × Nat) :=
  tps.filter (fun tp => !(stopWords.contains tp.1))

/-- `Analyzer.stemWord`: naive suffix stripping.  Go checks the byte
length of the word (`len(word) > 3`) and byte suffixes; stripping `k`
bytes of an ASCII suffix equals dropping the matching `k` runes. -/
def stemWord (word : Str) : Str :=
  if strByteLen word > 3 then
    if ("ing").data.isSuffixOf word then word.take (word.length - 3)
    else if ("ed").data.isSuffixOf word then word.take (word.length - 2)
    else if ("s").data.isSuffixOf word ∧ strByteLen word > 1 then
      word.take (word.length - 1)
    else word
  else word

/-- `Analyzer.stem`: stem every token. -/
def stemTokens (tokens : List Str) : List Str := tokens.map stemWord

/-- `Analyzer.Analyze`: tokenize, optionally filter stop words,
optionally stem. -/
def analyze (a : Analyzer) (text : Str) : List Str :=
  let tokens := tokenize text
  let tokens2 := if a.useStopWords then filterStopWords tokens else tokens
  if a.useStemming then stemTokens tokens2 else tokens2

/-- `Analyzer.AnalyzeWithPositions`: tokenize with positions, optionally
filter stop words (the source applies no stemming on this path). -/
def analyzeWithPositions (a : Analyzer) (text : Str) : List (Str × Nat) :=
  let tps := tokenizeWithPositions text
  if a.useStopWords then filterStopWordsWithPositions tps else tps

/-- A single entry in a posting list (`Posting` in the source). -/
structure Posting where
  docID : String
  termFreq : Int
  positions : List Int
deriving Repr, DecidableEq

/-- A posting list for a term (`PostingList` in the source). -/
structure PostingList where
  postings : List Posting
  docFreq : Int
deriving Repr, DecidableEq

/-- `NewPostingList`. -/
def newPostingList : PostingList := { postings := [], docFreq := 0 }

/-- Scan of `AddPosting`: update the posting for `docID` in place if it
exists, returning `none` when the document is not yet present. -/
def updatePostings (ps : List Posting) (docID : String) (position : Int) :
    Option (List Posting) :=
  match ps with
  | [] => none
  | p :: rest =>
    if p.docID = docID then
      some ({ p with termFreq := p.termFreq + 1
                     positions := p.positions ++ [position] } :: rest)
    else
      (updatePostings rest docID position).map (p :: ·)

/-- `PostingList.AddPosting`: update an existing posting or append a new
one (term frequency 1, one position) and bump `DocFreq`. -/
def PostingList.addPosting (pl : PostingList) (docID : String)
    (position : Int) : PostingList :=
  match updatePostings pl.postings docID position with
  | some ps => { pl with postings := ps }
  | none =>
    { postings := pl.postings ++
        [{ docID := docID, termFreq := 1, positions := [position] }],
      docFreq := pl.docFreq + 1 }

/-- `PostingList.GetPosting`: linear scan for a document ID. -/
def PostingList.getPosting (pl : PostingList) (docID : String) :
    Option Posting :=
  pl.postings.find? (fun p => p.docID = docID)

/-- `PostingList.GetDocIDs`. -/
def PostingList.getDocIDs (pl : PostingList) : List String :=
  pl.postings.map (·.docID)

/-- `PostingList.Size`. -/
def PostingList.size (pl : PostingList) : Nat := pl.postings.length

/-- The inverted index: a term dictionary keyed by `"field:token"`, the
analyzer it uses, and the two counters.  The Go map is modelled as an
association list in key-insertion order (Go's iteration order over the
map is unspecified; the model fixes first-insertion order). -/
structure InvertedIndex where
  termDict : List (Str × PostingList)
  analyzer : Analyzer
  totalTerms : Int
  totalDocs : Int
deriving Repr, DecidableEq

/-- `NewInvertedIndex`: empty dictionary with the default analyzer. -/
def newInvertedIndex : InvertedIndex :=
  { termDict := [], analyzer := newAnalyzer, totalTerms := 0, totalDocs := 0 }

/-- Association-list lookup standing in for a Go map read. -/
def dictLookup (dict : List (Str × PostingList)) (key : Str) :
    Option PostingList :=
  (dict.find? (fun kv => kv.1 = key)).map (·.2)

/-- Association-list write standing in for a Go map write: replace the
binding if the key exists, append it otherwise. -/
def dictInsert (dict : List (Str × PostingList)) (key : Str)
    (pl : PostingList) : List (Str × PostingList) :=
  match dict with
  | [] => [(key, pl)]
  | kv :: rest =>
    if kv.1 = key then (key, pl) :: rest
    else kv :: dictInsert rest key pl

/-- One step of `IndexDocument`'s token loop: fetch-or-create the posting
list for `"fieldName:token"` and add `(docID, position)` to it. -/
def indexToken (dict : List (Str × PostingList)) (docID : String)
    (fieldName : Str) (tp : Str × Nat) : List (Str × PostingList) :=
  let termKey := fieldName ++ (':' :: tp.1)
  let pl := (dictLookup dict termKey).getD newPostingList
  dictInsert dict termKey (pl.addPosting docID (Int.ofNat tp.2))

/-- `InvertedIndex.IndexDocument`: analyze the text with positions, add a
posting per token, bump `totalTerms` per token and `totalDocs` per call. -/
def InvertedIndex.indexDocument (idx : InvertedIndex) (docID : String)
    (fieldName : Str) (text : Str) : InvertedIndex :=
  let tps := analyzeWithPositions idx.analyzer text
  { idx with
    termDict := tps.foldl (fun d tp => indexToken d docID fieldName tp)
      idx.termDict,
    totalTerms := idx.totalTerms + tps.length,
    totalDocs := idx.totalDocs + 1 }

/-- `indexOf(termKey, ':')` from the source: byte index of the first
colon, `-1` when absent (rune index; the key's field part is the text
before the first colon either way). -/
def colonIndex (s : Str) : Int :=
  match s.indexOf? ':' with
  | some i => Int.ofNat i
  | none => -1

/-- `getAllFieldNames`: the distinct prefixes before the first colon of
every dictionary key whose colon index is positive, in first-occurrence
order (the determinization of Go's map iteration). -/
def getAllFieldNames (dict : List (Str × PostingList)) : List Str :=
  (dict.filterMap (fun kv =>
    if colonIndex kv.1 > 0 then some (kv.1.takeWhile (· ≠ ':')) else none)).dedup

/-- The any-field lookup at the heart of `Search` and
`SearchMultipleTerms`: the first field whose `"field:token"` key is in
the dictionary wins. -/
def anyFieldLookup (dict : List (Str × PostingList)) (token : Str) :
    Option PostingList :=
  (getAllFieldNames dict).findSome?
    (fun fieldName => dictLookup dict (fieldName ++ (':' :: token)))

/-- `InvertedIndex.Search`: analyze the term, take its first token, and
return the first any-field match. -/
def InvertedIndex.search (idx : InvertedIndex) (term : Str) :
    Option PostingList :=
  match analyze idx.analyzer term with
  | [] => none
  | token :: _ => anyFieldLookup idx.termDict token

/-- `InvertedIndex.SearchInField`. -/
def InvertedIndex.searchInField (idx : InvertedIndex) (fieldName : Str)
    (term : Str) : Option PostingList :=
  match analyze idx.analyzer term with
  | [] => none
  | token :: _ => dictLookup idx.termDict (fieldName ++ (':' :: token))

/-- `intersectPostingLists`: keep the postings of the first list whose
document ID appears in every other list; `DocFreq` of the result counts
the kept postings.  A single list is returned unchanged. -/
def intersectPostingLists (lists : List PostingList) : PostingList :=
  match lists with
  | [] => newPostingList
  | [l] => l
  | l :: rest =>
    let kept := l.postings.filter
      (fun p => rest.all (fun l2 => (l2.getPosting p.docID).isSome))
    { postings := kept, docFreq := Int.ofNat kept.length }

/-- The collection loop of `SearchMultipleTerms`: terms whose analysis is
empty are skipped (`continue`), and a term with no any-field match makes
the whole query return empty (`none` here). -/
def collectPostingLists (dict : List (Str × PostingList))
    (a : Analyzer) (terms : List Str) : Option (List PostingList) :=
  match terms with
  | [] => some []
  | term :: rest =>
    match analyze a term with
    | [] => collectPostingLists dict a rest
    | token :: _ =>
      match anyFieldLookup dict token with
      | none => none
      | some pl => (collectPostingLists dict a rest).map (pl :: ·)

/-- `InvertedIndex.SearchMultipleTerms`: `none` for an empty term list
(Go returns nil); otherwise empty when some analyzed term has no match,
else the intersection of the collected lists. -/
def InvertedIndex.searchMultipleTerms (idx : InvertedIndex)
    (terms : List Str) : Option PostingList :=
  if terms = [] then none
  else some (match collectPostingLists idx.termDict idx.analyzer terms with
    | none => newPostingList
    | some lists => intersectPostingLists lists)

/-- `InvertedIndex.GetStats`. -/
def InvertedIndex.getStats (idx : InvertedIndex) : Int × Int × Nat :=
  (idx.totalTerms, idx.totalDocs, idx.termDict.length)

/-- The declared field types of the data model. -/
inductive FieldType where
  | text
  | keyword
  | numeric
  | vector
  | boolean
  | date
deriving Repr, DecidableEq

/-- The JSON name of a field type (the `FieldType` string constants). -/
def FieldType.name : FieldType → String
  | .text => "text"
  | .keyword => "keyword"
  | .numeric => "numeric"
  | .vector => "vector"
  | .boolean => "boolean"
  | .date => "date"

/-- Typed field values: the tagged variant over the source's carrier
structs.  `float64` payloads are modelled as exact rationals (Go's JSON
codec round-trips finite `float64` exactly); a `time.Time` is modelled by
its serialized RFC3339 string. -/
inductive FieldValue where
  | text (s : String)
  | keyword (s : String)
  | numeric (v : Rat)
  | vector (data : List Rat) (dim : Int)
  | boolean (b : Bool)
  | date (t : String)
deriving Repr, DecidableEq

/-- `FieldValue.Type()`. -/
def FieldValue.typeOf : FieldValue → FieldType
  | .text _ => .text
  | .keyword _ => .keyword
  | .numeric _ => .numeric
  | .vector _ _ => .vector
  | .boolean _ => .boolean
  | .date _ => .date

/-- A document: ID, field map (association list in insertion order with
the keys unique, standing in for the Go map), version and the two
timestamps (modelled by their serialized strings). -/
structure Document where
  id : String
  fields : List (String × FieldValue)
  version : Int
  created : String
  updated : String
deriving Repr, DecidableEq

/-- A field definition of a schema (`FieldDef`). -/
structure FieldDef where
  type : FieldType
  indexed : Bool
  stored : Bool
  analyzed : Bool
  vectorDim : Int
  boost : Rat
  description : String
deriving Repr, DecidableEq

/-- A schema: a named map of field definitions (association list). -/
structure Schema where
  name : String
  fields : List (String × FieldDef)
deriving Repr, DecidableEq

/-- Lookup of a field definition, standing in for the Go map read. -/
def Schema.getField (s : Schema) (name : String) : Option FieldDef :=
  (s.fields.find? (fun kv => kv.1 = name)).map (·.2)

/-- The validation error carrier (`SchemaValidationError`). -/
structure SchemaValidationError where
  field : String
  expected : Option FieldType
  actual : Option FieldType
  message : String
deriving Repr, DecidableEq

/-- The per-field check of `Schema.ValidateDocument`: undeclared fields
pass; declared fields must match the declared type; for a declared
vector field the value's `Dim` tag (not its length) must equal the
schema's `VectorDim`. -/
def validateField (s : Schema) (name : String) (value : FieldValue) :
    Option SchemaValidationError :=
  match s.getField name with
  | none => none
  | some def_ =>
    if value.typeOf ≠ def_.type then
      some { field := name, expected := some def_.type,
             actual := some value.typeOf, message := "" }
    else if def_.type = .vector then
      match value with
      | .vector _ dim =>
        if dim ≠ def_.vectorDim then
          some { field := name, expected := none, actual := none,
                 message := "vector dimension mismatch" }
        else none
      | _ => none
    else none

/-- `Schema.ValidateDocument`: first failing field wins (the source
returns on the first violation found while iterating `doc.Fields`). -/
def Schema.validateDocument (s : Schema) (doc : Document) :
    Option SchemaValidationError :=
  doc.fields.findSome? (fun kv => validateField s kv.1 kv.2)

/-- Generic JSON values, modelling Go's `map[string]interface{}` tree
between `json.Marshal` and `json.Unmarshal`.  Numbers are exact
rationals (see `FieldValue`). -/
inductive Jval where
  | jnull
  | jbool (b : Bool)
  | jnum (q : Rat)
  | jstr (s : String)
  | jarr (elems : List Jval)
  | jobj (members : List (String × Jval))
deriving Inhabited

/-- JSON object member lookup (`v["key"]`). -/
def jGet (members : List (String × Jval)) (key : String) : Option Jval :=
  (members.find? (fun kv => kv.1 = key)).map (·.2)

/-- Go's default struct marshalling of the per-type value carriers: each
struct emits its exported fields, so for example `TextValue` becomes
`{"Value": "..."}` and `VectorValue` becomes `{"Value": [...], "Dim": n}`;
`time.Time` marshals to its RFC3339 string. -/
def marshalFieldValue : FieldValue → Jval
  | .text s => .jobj [("Value", .jstr s)]
  | .keyword s => .jobj [("Value", .jstr s)]
  | .numeric q => .jobj [("Value", .jnum q)]
  | .vector data dim =>
    .jobj [("Value", .jarr (data.map Jval.jnum)), ("Dim", .jnum (Rat.ofInt dim))]
  | .boolean b => .jobj [("Value", .jbool b)]
  | .date t => .jstr t

/-- `Document.MarshalJSON`: the envelope with each field wrapped as
`{"type": ..., "value": ...}`. -/
def marshalDocument (d : Document) : Jval :=
  .jobj [("id", .jstr d.id),
         ("fields", .jobj (d.fields.map (fun kv =>
           (kv.1, Jval.jobj [("type", .jstr kv.2.typeOf.name),
                             ("value", marshalFieldValue kv.2)])))),
         ("version", .jnum (Rat.ofInt d.version)),
         ("created", .jstr d.created),
         ("updated", .jstr d.updated)]

/-- The switch of `Document.UnmarshalJSON` over one field: a recognized
type whose value carries the expected scalar (either directly or behind
a `"Value"` key) produces a field value; anything else — including the
`vector` and `date` types, for which the switch has no case — yields
`none` and the field is silently dropped. -/
def unmarshalFieldValue (fieldType : String) (v : Jval) : Option FieldValue :=
  match fieldType with
  | "text" =>
    match v with
    | .jobj m =>
      match jGet m "Value" with
      | some (.jstr s) => some (.text s)
      | _ => none
    | .jstr s => some (.text s)
    | _ => none
  | "keyword" =>
    match v with
    | .jobj m =>
      match jGet m "Value" with
      | some (.jstr s) => some (.keyword s)
      | _ => none
    | .jstr s => some (.keyword s)
    | _ => none
  | "numeric" =>
    match v with
    | .jobj m =>
      match jGet m "Value" with
      | some (.jnum q) => some (.numeric q)
      | _ => none
    | .jnum q => some (.numeric q)
    | _ => none
  | "boolean" =>
    match v with
    | .jobj m =>
      match jGet m "Value" with
      | some (.jbool b) => some (.boolean b)
      | _ => none
    | .jbool b => some (.boolean b)
    | _ => none
  | _ => none

/-- Phase one of decoding the `fields` member: `json.Unmarshal` into
`map[string]map[string]interface{}` demands every field value be a JSON
object. -/
def decodeFieldObjs (members : List (String × Jval)) :
    Except String (List (String × List (String × Jval))) :=
  match members with
  | [] => .ok []
  | (k, v) :: rest =>
    match v with
    | .jobj m => (decodeFieldObjs rest).map ((k, m) :: ·)
    | _ => .error "json: cannot unmarshal field value into map"

/-- Phase two: the loop of `Document.UnmarshalJSON`.  A missing or
non-string `"type"` aborts with an error; otherwise the switch runs and
fields whose switch result is nil are dropped. -/
def decodeFields (fields : List (String × List (String × Jval))) :
    Except String (List (String × FieldValue)) :=
  match fields with
  | [] => .ok []
  | (k, m) :: rest =>
    match jGet m "type" with
    | some (.jstr ft) =>
      (decodeFields rest).map (fun fs =>
        match unmarshalFieldValue ft ((jGet m "value").getD .jnull) with
        | some fv => (k, fv) :: fs
        | none => fs)
    | _ => .error ("invalid field type for " ++ k)

/-- Decoding of a top-level string member: absent or null leaves the zero
value, a string is taken as is, anything else is a type error. -/
def decodeStr (v : Option Jval) : Except String String :=
  match v with
  | none => .ok ""
  | some .jnull => .ok ""
  | some (.jstr s) => .ok s
  | some _ => .error "json: cannot unmarshal into string"

/-- Decoding of the `version` member into `int64`: a fractional number is
a type error. -/
def decodeVersion (v : Option Jval) : Except String Int :=
  match v with
  | none => .ok 0
  | some .jnull => .ok 0
  | some (.jnum q) => if q.den = 1 then .ok q.num
    else .error "json: cannot unmarshal into int64"
  | some _ => .error "json: cannot unmarshal into int64"

/-- `Document.UnmarshalJSON` over the generic JSON tree. -/
def unmarshalDocument (j : Jval) : Except String Document :=
  match j with
  | .jobj m => do
    let id ← decodeStr (jGet m "id")
    let version ← decodeVersion (jGet m "version")
    let created ← decodeStr (jGet m "created")
    let updated ← decodeStr (jGet m "updated")
    let rawFields ←
      match jGet m "fields" with
      | none => .ok []
      | some .jnull => .ok []
      | some (.jobj fm) => decodeFieldObjs fm
      | some _ => .error "json: cannot unmarshal fields into map"
    let fields ← decodeFields rawFields
    .ok { id := id, fields := fields, version := version,
          created := created, updated := updated }
  | _ => .error "json: cannot unmarshal document"

/-- The JSON round-trip action on one field value: the four types with an
`UnmarshalJSON` case survive unchanged, `vector` and `date` are dropped. -/
def roundtripField : FieldValue → Option FieldValue
  | .text s => some (.text s)
  | .keyword s => some (.keyword s)
  | .numeric q => some (.numeric q)
  | .boolean b => some (.boolean b)
  | .vector _ _ => none
  | .date _ => none

/-- The JSON round-trip action on a document. -/
def roundtripDocument (d : Document) : Document :=
  { d with fields := d.fields.filterMap (fun kv =>
      (roundtripField kv.2).map (fun fv => (kv.1, fv))) }

/-- `WALEntryType`. -/
inductive WALEntryType where
  | write
  | delete
  | update
deriving Repr, DecidableEq

/-- A WAL entry as serialized to the log. -/
structure WALEntry where
  type : WALEntryType
  index : String
  docID : String
  document : Option Document
  timestamp : Int
  sequence : Nat
deriving Repr, DecidableEq

/-- The WAL's in-memory and on-file state: the in-memory sequence
counter, the sequence stored in the file header, and the entry frames
appended to the file. -/
structure WALState where
  sequence : Nat
  hdrSequence : Nat
  entries : List WALEntry
deriving Repr, DecidableEq

/-- `WAL.Open` on an empty file writes a fresh header with sequence 0. -/
def walFresh : WALState := { sequence := 0, hdrSequence := 0, entries := [] }

/-- The caller-supplied part of `WAL.WriteEntry` (the timestamp is drawn
from the clock; the model takes it as an input). -/
structure WALWriteReq where
  type : WALEntryType
  index : String
  docID : String
  document : Option Document
  timestamp : Int
deriving Repr, DecidableEq

/-- The modulus of the `uint64` sequence counter. -/
def uint64Mod : Nat := 2 ^ 64

/-- `WAL.WriteEntry`: bump the sequence, append the entry frame, then
rewrite the header with the new sequence. -/
def WAL.writeEntry (w : WALState) (req : WALWriteReq) : WALState :=
  let seq2 := (w.sequence + 1) % uint64Mod
  { sequence := seq2,
    hdrSequence := seq2,
    entries := w.entries ++
      [{ type := req.type, index := req.index, docID := req.docID,
         document := req.document, timestamp := req.timestamp,
         sequence := seq2 }] }

/-- A sequence of `WriteEntry` calls. -/
def WAL.writeAll (w : WALState) (reqs : List WALWriteReq) : WALState :=
  reqs.foldl WAL.writeEntry w

/-- Little-endian byte encodings used by `binary.Write`. -/
def putU16 (n : Nat) : List Nat := [n % 256, n / 256 % 256]

def putU32 (n : Nat) : List Nat :=
  [n % 256, n / 256 % 256, n / 65536 % 256, n / 16777216 % 256]

/-- The UTF-8 bytes of a string. -/
def strBytes (s : String) : List Nat := s.toUTF8.toList.map (·.toNat)

/-- The `NINV` index-segment header: magic, version, term count,
reserved. -/
def indexSegHeaderBytes (termCount : Nat) : List Nat :=
  strBytes "NINV" ++ putU16 1 ++ putU32 termCount ++ List.replicate 8 0

/-- One posting as `writePostingList` emits it.  Go's `binary.Write`
rejects `[]int` (not a fixed-size type), so writing a nonempty positions
slice returns an error instead of bytes. -/
def writePostingBytes (p : Posting) : Except String (List Nat) :=
  let docIDBytes := strBytes p.docID
  let head := putU16 docIDBytes.length ++ docIDBytes ++
    putU32 (p.termFreq.emod 4294967296).toNat ++
    putU32 p.positions.length
  if p.positions.length > 0 then
    .error "binary.Write: invalid type []int"
  else .ok head

def writePostingsBytes : List Posting → Except String (List Nat)
  | [] => .ok []
  | p :: ps => do
    let b ← writePostingBytes p
    let rest ← writePostingsBytes ps
    .ok (b ++ rest)

/-- `IndexSegment.writePostingList`: document frequency then each
posting. -/
def writePostingListBytes (pl : PostingList) : Except String (List Nat) := do
  let body ← writePostingsBytes pl.postings
  .ok (putU32 (pl.docFreq.emod 4294967296).toNat ++ body)

def writeTermsBytes : List (Str × PostingList) → Except String (List Nat)
  | [] => .ok []
  | kv :: rest => do
    let termBytes := strBytes (String.mk kv.1)
    let plBytes ← writePostingListBytes kv.2
    let restBytes ← writeTermsBytes rest
    .ok (putU16 termBytes.length ++ termBytes ++ plBytes ++ restBytes)

/-- `IndexSegment.Write`: header with `term_count = |termDict|`, then
every term with its posting list; the first `binary.Write` failure
aborts with its error. -/
def IndexSegment.write (idx : InvertedIndex) : Except String (List Nat) := do
  let body ← writeTermsBytes idx.termDict
  .ok (indexSegHeaderBytes idx.termDict.length ++ body)

mutual

/-- Byte length of the JSON text `json.Marshal` produces for a value.
Only determinism matters for the offset bookkeeping proved below (no
claim mentions the record bytes themselves), so string escaping and
exact number formatting are abstracted by a fixed per-node count. -/
def encLen : Jval → Nat
  | .jnull => 4
  | .jbool b => if b then 4 else 5
  | .jnum q => (toString q.num).length + (toString q.den).length
  | .jstr s => s.utf8ByteSize + 2
  | .jarr elems => encLenList elems + 2
  | .jobj members => encLenObj members + 2

def encLenList : List Jval → Nat
  | [] => 0
  | j :: rest => encLen j + 1 + encLenList rest

def encLenObj : List (String × Jval) → Nat
  | [] => 0
  | kv :: rest => kv.1.utf8ByteSize + 3 + encLen kv.2 + 1 + encLenObj rest

end

/-- `binary.Size(SegmentHeader{})`: magic 4 + version 2 + doc count 4 +
created 8 + index offset 8 + reserved 8. -/
def segHeaderSize : Int := 34

/-- The bytes a record occupies: `doc_len:u32` plus the JSON payload. -/
def recLen (j : Jval) : Int := 4 + (encLen j : Int)

/-- The segment file: the header fields, the document records (offset
and JSON payload; the payload length determines the record's extent),
the tail index content pointed to by `index_offset` when positive, and
the file size. -/
structure SegFile where
  hdrDocCount : Nat
  hdrIndexOffset : Int
  hdrCreated : Int
  records : List (Int × Jval)
  tail : List (String × Int)
  size : Int

/-- The open segment: the file plus the in-memory docID → offset map
(association list standing in for the Go map) and counters. -/
structure SegmentState where
  file : SegFile
  docIndex : List (String × Int)
  docCount : Nat
  created : Int

/-- Go map read on the docID → offset map. -/
def offLookup (m : List (String × Int)) (id : String) : Option Int :=
  (m.find? (fun kv => kv.1 = id)).map (·.2)

/-- Go map write on the docID → offset map. -/
def offInsert (m : List (String × Int)) (id : String) (off : Int) :
    List (String × Int) :=
  match m with
  | [] => [(id, off)]
  | kv :: rest =>
    if kv.1 = id then (id, off) :: rest else kv :: offInsert rest id off

/-- `Segment.Open` on an empty file: write a fresh header
(`index_offset = 0`), leaving the file at exactly the header. -/
def freshSegment (created : Int) : SegmentState :=
  { file := { hdrDocCount := 0, hdrIndexOffset := 0, hdrCreated := created,
              records := [], tail := [], size := segHeaderSize },
    docIndex := [], docCount := 0, created := created }

/-- The write-offset determination of `Segment.WriteDocument`: at
`headerSize` when the file holds only the header; at the header's
`index_offset` (after truncating the old tail index away) when that is
positive; otherwise appended at the end of the file. -/
def segWriteOffset (s : SegmentState) : Int :=
  if s.file.size = segHeaderSize then segHeaderSize
  else if s.file.hdrIndexOffset > 0 then s.file.hdrIndexOffset
  else s.file.size

/-- `file.Truncate(t)`: drop everything at or past byte `t`; a record
survives only if its extent lies entirely below the cut. -/
def truncateRecords (rs : List (Int × Jval)) (t : Int) : List (Int × Jval) :=
  rs.filter (fun r => r.1 + recLen r.2 ≤ t)

/-- The common tail of `Segment.WriteDocument` after the write offset is
determined: write the length-prefixed record at `off` over the `base`
record layout, update the in-memory map and counters, and rewrite the
header — `writeHeader` builds a fresh header struct, so the on-disk
`index_offset` is reset to 0 until the next flush (the model therefore
carries no live tail). -/
def writeRecordAt (s : SegmentState) (d : Document) (docBytes : Jval)
    (base : List (Int × Jval)) (off : Int) : SegmentState :=
  { file := { hdrDocCount := s.docCount + 1, hdrIndexOffset := 0,
              hdrCreated := s.created,
              records := base ++ [(off, docBytes)],
              tail := [],
              size := off + recLen docBytes },
    docIndex := offInsert s.docIndex d.id off,
    docCount := s.docCount + 1,
    created := s.created }

/-- `Segment.WriteDocument`: marshal the document, then: a file holding
only the header gets the record right after the header; otherwise a
positive `index_offset` in the header makes the file be truncated to
`index_offset` and the record written there; otherwise the record is
appended at the end of the file. -/
def Segment.writeDocument (s : SegmentState) (d : Document) : SegmentState :=
  let docBytes := marshalDocument d
  if s.file.size = segHeaderSize then
    writeRecordAt s d docBytes s.file.records segHeaderSize
  else if s.file.hdrIndexOffset > 0 then
    writeRecordAt s d docBytes
      (truncateRecords s.file.records s.file.hdrIndexOffset)
      s.file.hdrIndexOffset
  else
    writeRecordAt s d docBytes s.file.records s.file.size

/-- The record stored at a file offset, as `Segment.ReadDocument` reads
it back. -/
def recordAt (s : SegmentState) (off : Int) : Option Jval :=
  (s.file.records.find? (fun r => r.1 = off)).map (·.2)

/-- `Segment.ReadDocument`: look the offset up in the in-memory map,
read the length-prefixed record there, JSON-parse it. -/
def Segment.readDocument (s : SegmentState) (id : String) :
    Except String Document :=
  match offLookup s.docIndex id with
  | none => .error ("document not found: " ++ id)
  | some off =>
    match recordAt s off with
    | none => .error "failed to read document"
    | some j =>
      match unmarshalDocument j with
      | .ok d => .ok d
      | .error e => .error ("failed to unmarshal document: " ++ e)

/-- Serialized size of the tail index: `count:u32` plus one
`(id_len:u16, id_bytes, offset:i64)` triple per entry. -/
def tailLen (m : List (String × Int)) : Int :=
  4 + (((m.map (fun kv => 2 + kv.1.utf8ByteSize + 8)).sum : Nat) : Int)

/-- `Segment.Flush` / `writeIndex`: append the docID → offset table at
the end of the file, then rewrite the header with the new
`index_offset` and the current document count. -/
def Segment.flush (s : SegmentState) : SegmentState :=
  let indexOffset := s.file.size
  { s with file := { s.file with
      hdrDocCount := s.docCount,
      hdrIndexOffset := indexOffset,
      tail := s.docIndex,
      size := s.file.size + tailLen s.docIndex } }

/-- `Segment.Close`: flush the tail index, then release the handle —
what remains is the file. -/
def Segment.close (s : SegmentState) : SegFile := (Segment.flush s).file

/-- `Segment.Open` on an existing file: read the header and, when
`index_offset > 0`, read the tail index into the in-memory map. -/
def Segment.openFile (f : SegFile) : SegmentState :=
  { file := f,
    docIndex := if f.hdrIndexOffset > 0 then f.tail else [],
    docCount := f.hdrDocCount,
    created := f.hdrCreated }

/-- A sequence of `WriteDocument` calls on an open segment. -/
def Segment.writeAll (s : SegmentState) (ds : List Document) : SegmentState :=
  ds.foldl Segment.writeDocument s

/-- The error kinds a `Segment.ReadDocument` call can surface: the
missing-ID miss, an I/O failure (seek/read), or a corruption (JSON
parse) failure. -/
inductive SegReadError where
  | notFound (msg : String)
  | ioFailure (msg : String)
  | corruption (msg : String)
deriving Repr, DecidableEq

/-- The loop of `IndexManager.ReadDocument` over the per-segment
outcomes, newest (last of the segment list) first: the first success
wins, every error — of any kind — silently falls through to the next
older segment. -/
def scanNewestFirst (results : List (Except SegReadError Document)) :
    Option Document :=
  results.reverse.findSome? (fun r =>
    match r with
    | .ok d => some d
    | .error _ => none)

/-- `IndexManager.ReadDocument`, parameterized by what each segment's
`ReadDocument` returned (oldest segment first, as in `im.segments`):
after every segment has failed the generic not-found error is returned,
never an underlying segment error. -/
def IndexManager.readDocumentFrom
    (results : List (Except SegReadError Document)) (id : String) :
    Except String Document :=
  match scanNewestFirst results with
  | some d => .ok d
  | none => .error ("document not found: " ++ id)

/-- The error kinds of `IndexManager.WriteDocument` in the pure model
(I/O is not modelled, so WAL and segment writes always succeed). -/
inductive IMError where
  | schemaValidation (e : SchemaValidationError)
  | noSegments
deriving Repr, DecidableEq

/-- The index manager: schema, ordered segment list (oldest first, the
last one active) and the WAL. -/
structure IndexManager where
  name : String
  schema : Schema
  segments : List SegmentState
  wal : WALState

/-- `IndexManager.WriteDocument`: validate against the schema, append a
`Write` WAL entry, write to the active (last) segment, flush its tail
index. -/
def IndexManager.writeDocument (im : IndexManager) (d : Document)
    (ts : Int) : Except IMError IndexManager :=
  match im.schema.validateDocument d with
  | some e => .error (.schemaValidation e)
  | none =>
    let wal2 := WAL.writeEntry im.wal
      { type := .write, index := im.name, docID := d.id,
        document := some d, timestamp := ts }
    match im.segments.getLast? with
    | none => .error .noSegments
    | some seg =>
      .ok { im with
            wal := wal2
            segments := im.segments.dropLast ++
              [Segment.flush (Segment.writeDocument seg d)] }

instance {ε α : Type} [DecidableEq ε] [DecidableEq α] :
    DecidableEq (Except ε α) := fun a b =>
  match a, b with
  | .ok x, .ok y =>
    if h : x = y then .isTrue (by rw [h]) else .isFalse (by simp [h])
  | .ok _, .error _ => .isFalse (by simp)
  | .error _, .ok _ => .isFalse (by simp)
  | .error x, .error y =>
    if h : x = y then .isTrue (by rw [h]) else .isFalse (by simp [h])

/-- The posting-list invariant of the spec: `doc_freq` counts the
postings, each posting's `term_freq` counts its positions, and document
IDs are pairwise distinct. -/
def plInvariant (pl : PostingList) : Prop :=
  pl.docFreq = Int.ofNat pl.postings.length ∧
  (∀ p ∈ pl.postings, p.termFreq = Int.ofNat p.positions.length) ∧
  (pl.postings.map (·.docID)).Nodup

/-- A sequence of `IndexDocument` calls: (docID, fieldName, text). -/
def indexAll (idx : InvertedIndex) (calls : List (String × Str × Str)) :
    InvertedIndex :=
  calls.foldl (fun i c => i.indexDocument c.1 c.2.1 c.2.2) idx

/-- Every posting list stored in a dictionary satisfies the invariant. -/
def dictInv (dict : List (Str × PostingList)) : Prop :=
  ∀ key pl, dictLookup dict key = some pl → plInvariant pl

/-- A schema violation as `Schema.ValidateDocument` actually detects it:
a declared field of the wrong type, or a declared vector field whose
value carries a `Dim` tag different from the declared dimension. -/
def fieldViolation (s : Schema) (name : String) (v : FieldValue) : Prop :=
  ∃ fd, s.getField name = some fd ∧
    (v.typeOf ≠ fd.type ∨
      (fd.type = .vector ∧ ∃ data dim, v = .vector data dim ∧ dim ≠ fd.vectorDim))

/-- End of the record region: the first free byte after laying records
out one after the other from `a`. -/
def spacedEnd (a : Int) (rs : List (Int × Jval)) : Int :=
  match rs with
  | [] => a
  | r :: rest => spacedEnd (r.1 + recLen r.2) rest

/-- The records of a segment file in layout order: each record starts at
or after the previous one ends, the first at or after `a`. -/
inductive RecSpaced : Int → List (Int × Jval) → Prop where
  | nil (a : Int) : RecSpaced a []
  | cons (a : Int) (r : Int × Jval) (rest : List (Int × Jval))
      (hle : a ≤ r.1) (hrest : RecSpaced (r.1 + recLen r.2) rest) :
      RecSpaced a (r :: rest)

/-- The segment well-formedness the write/flush/close/open cycle
maintains: records are laid out from the header onward, and either the
header holds no index offset and the file ends exactly at the record
region (the state after a write), or the header's index offset points
at or past the record region with the tail index there and the
in-memory map persisted in it (the state after a flush). -/
def SegGood (s : SegmentState) : Prop :=
  RecSpaced segHeaderSize s.file.records ∧
  ((s.file.hdrIndexOffset = 0 ∧
      s.file.size = spacedEnd segHeaderSize s.file.records) ∨
   (spacedEnd segHeaderSize s.file.records ≤ s.file.hdrIndexOffset ∧
      0 < s.file.hdrIndexOffset ∧
      s.file.size = s.file.hdrIndexOffset + tailLen s.docIndex ∧
      s.file.tail = s.docIndex))

/-- Example: the inverted index after `IndexDocument("1", "title",
"hello")`. -/
def exIdxHello : InvertedIndex :=
  newInvertedIndex.indexDocument "1" ("title").data ("hello").data

/-- Example: the inverted index after `IndexDocument("1", "title",
"a classic novel")`. -/
def exIdxNovel : InvertedIndex :=
  newInvertedIndex.indexDocument "1" ("title").data ("a classic novel").data

/-- Example document carrying only field types the JSON codec round
trips. -/
def exDocA : Document :=
  { id := "1"
    fields := [("title", .text "Hello World"), ("n", .numeric 3),
               ("b", .boolean true)]
    version := 1
    created := "2024-01-01T00:00:00Z"
    updated := "2024-01-01T00:00:00Z" }

/-- Example document carrying a `date` field. -/
def exDocDate : Document :=
  { id := "9"
    fields := [("when", .date "2020-01-02T03:04:05Z")]
    version := 1
    created := "2024-01-01T00:00:00Z"
    updated := "2024-01-01T00:00:00Z" }

/-- Example schema declaring a 3-dimensional vector field. -/
def exSchemaVec : Schema :=
  { name := "s"
    fields := [("v", { type := .vector, indexed := true, stored := true,
                       analyzed := false, vectorDim := 3, boost := 1,
                       description := "" })] }

/-- Example document whose vector value has length 1 but carries `Dim`
tag 3. -/
def exDocVec : Document :=
  { id := "1"
    fields := [("v", .vector [1] 3)]
    version := 1
    created := ""
    updated := "" }

/-- Example index manager over `exSchemaVec` with one fresh segment. -/
def exIM : IndexManager :=
  { name := "demo", schema := exSchemaVec,
    segments := [freshSegment 0], wal := walFresh }

/-- Example WAL write requests. -/
def exReqs : List WALWriteReq :=
  [{ type := .write, index := "demo", docID := "1", document := none,
     timestamp := 5 },
   { type := .write, index := "demo", docID := "2", document := some exDocA,
     timestamp := 6 },
   { type := .delete, index := "demo", docID := "1", document := none,
     timestamp := 7 }]

/-- Example posting list: the one `exIdxHello` holds for `title:hello`. -/
def exHelloPL : PostingList :=
  { postings := [{ docID := "1", termFreq := 1, positions := [0] }],
    docFreq := 1 }

theorem take_append_suffix (w suf : Str) (h : List.IsSuffix suf w) :
    w.take (w.length - suf.length) ++ suf = w := by
  obtain ⟨p, hp⟩ := h
  subst hp
  rw [List.length_append, Nat.add_sub_cancel, List.take_left]

/-- C8 counterexample: the claim strips `-ing` only from words of length
strictly greater than 3 + 1, so it would leave `"king"` (length 4)
unchanged; the source's guard is `len(word) > 3`, so `"king"` is stemmed
to `"k"`. -/
theorem stemWord_king_counterexample :
    stemWord (("king").data) = ("k").data ∧
    strByteLen (("king").data) = 3 + 1 := by
  constructor
  · rfl
  · rfl

/-- C8 amended: with stemming enabled the analyzer maps `stemWord` over
the (stop-word filtered) tokens, and `stemWord` strips `-ing` by 3,
`-ed` by 2 and `-s` by 1 — in that order — from any word whose byte
length exceeds 3, leaving every other word unchanged. -/
theorem stemWord_spec (w : Str) :
    (strByteLen w ≤ 3 → stemWord w = w) ∧
    (3 < strByteLen w → (("ing").data).isSuffixOf w = true →
      stemWord w ++ ("ing").data = w) ∧
    (3 < strByteLen w → (("ing").data).isSuffixOf w = false →
      (("ed").data).isSuffixOf w = true → stemWord w ++ ("ed").data = w) ∧
    (3 < strByteLen w → (("ing").data).isSuffixOf w = false →
      (("ed").data).isSuffixOf w = false → (("s").data).isSuffixOf w = true →
      stemWord w ++ ("s").data = w) ∧
    (3 < strByteLen w → (("ing").data).isSuffixOf w = false →
      (("ed").data).isSuffixOf w = false → (("s").data).isSuffixOf w = false →
      stemWord w = w) ∧
    (∀ a : Analyzer, a.useStemming = true → ∀ text,
      analyze a text =
        ((if a.useStopWords then filterStopWords (tokenize text)
          else tokenize text)).map stemWord) := by
  refine ⟨?_, ?_, ?_, ?_, ?_, ?_⟩
  · intro hle
    unfold stemWord
    rw [if_neg (by omega)]
  · intro hgt hing
    have hsuf := List.isSuffixOf_iff_suffix.mp hing
    have hw := take_append_suffix w (("ing").data) hsuf
    have hlen : ((("ing").data)).length = 3 := rfl
    rw [hlen] at hw
    unfold stemWord
    rw [if_pos hgt]
    simp only [hing, ite_true]
    exact hw
  · intro hgt hing hed
    have hsuf := List.isSuffixOf_iff_suffix.mp hed
    have hw := take_append_suffix w (("ed").data) hsuf
    have hlen : ((("ed").data)).length = 2 := rfl
    rw [hlen] at hw
    unfold stemWord
    rw [if_pos hgt]
    simp only [hing, hed, Bool.false_eq_true, ite_false, ite_true]
    exact hw
  · intro hgt hing hed hs
    have hsuf := List.isSuffixOf_iff_suffix.mp hs
    have hw := take_append_suffix w (("s").data) hsuf
    have hlen : ((("s").data)).length = 1 := rfl
    rw [hlen] at hw
    unfold stemWord
    rw [if_pos hgt]
    simp only [hing, hed, hs, Bool.false_eq_true, ite_false, true_and]
    rw [if_pos (show strByteLen w > 1 by omega)]
    exact hw
  · intro hgt hing hed hs
    unfold stemWord
    rw [if_pos hgt]
    simp [hing, hed, hs]
  · intro a hstem text
    simp [analyze, hstem, stemTokens]

/-- C8 witness: the amended statement evaluated on `"jumping"`. -/
theorem stemWord_spec_witness :
    stemWord (("jumping").data) ++ ("ing").data = ("jumping").data :=
  (stemWord_spec (("jumping").data)).2.1 (by decide) (by decide)

theorem updatePostings_none_iff (ps : List Posting) (d : String) (pos : Int) :
    updatePostings ps d pos = none ↔ ∀ p ∈ ps, p.docID ≠ d := by
  induction ps with
  | nil => simp [updatePostings]
  | cons p rest ih =>
    by_cases h : p.docID = d
    · simp [updatePostings, h]
    · simp [updatePostings, h, ih]

theorem updatePostings_docIDs (ps : List Posting) (d : String) (pos : Int)
    (ps2 : List Posting) (h : updatePostings ps d pos = some ps2) :
    ps2.map (·.docID) = ps.map (·.docID) := by
  induction ps generalizing ps2 with
  | nil => simp [updatePostings] at h
  | cons p rest ih =>
    by_cases hd : p.docID = d
    · simp only [updatePostings, if_pos hd, Option.some.injEq] at h
      subst h
      simp [hd]
    · simp only [updatePostings, if_neg hd, Option.map_eq_some'] at h
      obtain ⟨ps3, h3, rfl⟩ := h
      simp [ih ps3 h3]

theorem updatePostings_termFreq (ps : List Posting) (d : String) (pos : Int)
    (ps2 : List Posting) (h : updatePostings ps d pos = some ps2)
    (hps : ∀ p ∈ ps, p.termFreq = Int.ofNat p.positions.length) :
    ∀ p ∈ ps2, p.termFreq = Int.ofNat p.positions.length := by
  induction ps generalizing ps2 with
  | nil => simp [updatePostings] at h
  | cons p rest ih =>
    by_cases hd : p.docID = d
    · simp only [updatePostings, if_pos hd, Option.some.injEq] at h
      subst h
      intro q hq
      rcases List.mem_cons.mp hq with hq | hq
      · subst hq
        have := hps p (List.mem_cons_self p rest)
        simp [this, Int.ofNat_succ]
      · exact hps q (List.mem_cons_of_mem p hq)
    · simp only [updatePostings, if_neg hd, Option.map_eq_some'] at h
      obtain ⟨ps3, h3, rfl⟩ := h
      intro q hq
      rcases List.mem_cons.mp hq with hq | hq
      · subst hq
        exact hps q (List.mem_cons_self q rest)
      · exact ih ps3 h3 (fun r hr => hps r (List.mem_cons_of_mem p hr)) q hq

theorem addPosting_invariant (pl : PostingList) (d : String) (pos : Int)
    (h : plInvariant pl) : plInvariant (pl.addPosting d pos) := by
  obtain ⟨hdf, htf, hnd⟩ := h
  unfold PostingList.addPosting
  cases hup : updatePostings pl.postings d pos with
  | none =>
    refine ⟨?_, ?_, ?_⟩
    · simp [hdf, Int.ofNat_succ]
    · intro p hp
      rcases List.mem_append.mp hp with hp | hp
      · exact htf p hp
      · simp at hp
        subst hp
        rfl
    · have hnodup : ∀ p ∈ pl.postings, p.docID ≠ d :=
        (updatePostings_none_iff pl.postings d pos).mp hup
      simp only [List.map_append, List.map_cons, List.map_nil]
      rw [List.nodup_append]
      refine ⟨hnd, List.nodup_singleton d, ?_⟩
      intro x hx
      simp only [List.mem_map] at hx
      obtain ⟨p, hp, rfl⟩ := hx
      simp [hnodup p hp]
  | some ps2 =>
    refine ⟨?_, ?_, ?_⟩
    · have := updatePostings_docIDs pl.postings d pos ps2 hup
      have hlen : ps2.length = pl.postings.length := by
        have := congrArg List.length this
        simpa using this
      simp [hdf, hlen]
    · exact updatePostings_termFreq pl.postings d pos ps2 hup htf
    · rw [updatePostings_docIDs pl.postings d pos ps2 hup]
      exact hnd

theorem dictInsert_lookup (dict : List (Str × PostingList)) (key : Str)
    (pl : PostingList) (k2 : Str) :
    dictLookup (dictInsert dict key pl) k2 =
      if k2 = key then some pl else dictLookup dict k2 := by
  induction dict with
  | nil =>
    by_cases h : k2 = key
    · simp [dictInsert, dictLookup, h]
    · have h2 : ¬ key = k2 := fun hh => h hh.symm
      simp [dictInsert, dictLookup, h, h2]
  | cons kv rest ih =>
    by_cases hk : kv.1 = key
    · simp only [dictInsert, if_pos hk]
      by_cases h2 : k2 = key
      · simp [dictLookup, h2]
      · have hne2 : ¬ key = k2 := fun hh => h2 hh.symm
        have hne : ¬ kv.1 = k2 := by
          rw [hk]
          exact hne2
        simp only [dictLookup, List.find?_cons, if_neg h2]
        have d1 : (decide (key = k2)) = false := by simp [hne2]
        have d2 : (decide (kv.1 = k2)) = false := by simp [hne]
        rw [d1, d2]
    · simp only [dictInsert, if_neg hk]
      by_cases h2 : kv.1 = k2
      · have hne : ¬ k2 = key := fun hh => hk (h2.trans hh)
        simp [dictLookup, h2, hne]
      · simp only [dictLookup, List.find?_cons] at ih ⊢
        have hdec : (decide (kv.1 = k2)) = false := by simp [h2]
        rw [hdec]
        exact ih

theorem newPostingList_invariant : plInvariant newPostingList := by
  refine ⟨rfl, ?_, ?_⟩ <;> simp [newPostingList]

theorem indexToken_dictInv (dict : List (Str × PostingList)) (docID : String)
    (fieldName : Str) (tp : Str × Nat) (h : dictInv dict) :
    dictInv (indexToken dict docID fieldName tp) := by
  intro key pl hl
  unfold indexToken at hl
  rw [dictInsert_lookup] at hl
  by_cases hk : key = fieldName ++ (':' :: tp.1)
  · rw [if_pos hk] at hl
    cases hl
    cases hbase : dictLookup dict (fieldName ++ (':' :: tp.1)) with
    | none => simp only [hbase, Option.getD_none]
              exact addPosting_invariant _ _ _ newPostingList_invariant
    | some pl0 => simp only [hbase, Option.getD_some]
                  exact addPosting_invariant _ _ _ (h _ pl0 hbase)
  · rw [if_neg hk] at hl
    exact h key pl hl

theorem indexDocument_dictInv (idx : InvertedIndex) (docID : String)
    (fieldName : Str) (text : Str) (h : dictInv idx.termDict) :
    dictInv (idx.indexDocument docID fieldName text).termDict := by
  unfold InvertedIndex.indexDocument
  generalize analyzeWithPositions idx.analyzer text = tps
  induction tps generalizing idx with
  | nil => exact h
  | cons tp rest ih =>
    simp only [List.foldl_cons]
    have step := indexToken_dictInv idx.termDict docID fieldName tp h
    exact ih { idx with termDict := indexToken idx.termDict docID fieldName tp }
      step

theorem indexAll_dictInv (calls : List (String × Str × Str))
    (idx : InvertedIndex) (h : dictInv idx.termDict) :
    dictInv (indexAll idx calls).termDict := by
  induction calls generalizing idx with
  | nil => exact h
  | cons c rest ih =>
    exact ih _ (indexDocument_dictInv idx c.1 c.2.1 c.2.2 h)

/-- C9: any posting list built from the empty list by `AddPosting` calls
— in particular each per-`(term, field)` list `IndexDocument` maintains —
has `doc_freq` equal to its posting count, each posting's `term_freq`
equal to its position count, and pairwise distinct document IDs. -/
theorem postingList_invariants (ops : List (String × Int))
    (calls : List (String × Str × Str)) :
    plInvariant (ops.foldl (fun pl op => pl.addPosting op.1 op.2)
      newPostingList) ∧
    (∀ key pl,
      dictLookup (indexAll newInvertedIndex calls).termDict key = some pl →
      plInvariant pl) := by
  constructor
  · have : ∀ (l : List (String × Int)) (pl : PostingList), plInvariant pl →
        plInvariant (l.foldl (fun pl op => pl.addPosting op.1 op.2) pl) := by
      intro l
      induction l with
      | nil => exact fun pl h => h
      | cons op rest ih =>
        intro pl h
        exact ih _ (addPosting_invariant pl op.1 op.2 h)
    exact this ops newPostingList newPostingList_invariant
  · exact indexAll_dictInv calls newInvertedIndex (fun key pl h => by
      simp [newInvertedIndex, dictLookup] at h)

/-- C9 witness: the invariants evaluated on a concrete `AddPosting`
sequence and on the list `exIdxHello` stores for `title:hello`. -/
theorem postingList_invariants_witness :
    plInvariant (([("1", 0), ("1", 3), ("2", 1)] :
      List (String × Int)).foldl (fun pl op => pl.addPosting op.1 op.2)
      newPostingList) ∧
    plInvariant exHelloPL :=
  ⟨(postingList_invariants [("1", 0), ("1", 3), ("2", 1)] []).1,
   (postingList_invariants [] [("1", ("title").data, ("hello").data)]).2
     (("title:hello").data) exHelloPL (by decide)⟩

theorem collect_eq_none_iff (dict : List (Str × PostingList)) (a : Analyzer)
    (terms : List Str) :
    collectPostingLists dict a terms = none ↔
      ∃ t ∈ terms, analyze a t ≠ [] ∧
        anyFieldLookup dict ((analyze a t).headI) = none := by
  induction terms with
  | nil => simp [collectPostingLists]
  | cons t rest ih =>
    cases h : analyze a t with
    | nil => simp [collectPostingLists, h, ih]
    | cons tok toks =>
      cases hl : anyFieldLookup dict tok with
      | none => simp [collectPostingLists, h, hl]
      | some pl => simp [collectPostingLists, h, hl, ih, Option.map_eq_none']

theorem collect_eq_some_of_all (dict : List (Str × PostingList))
    (a : Analyzer) (terms : List Str)
    (h : ∀ t ∈ terms, analyze a t ≠ [] →
      (anyFieldLookup dict ((analyze a t).headI)).isSome) :
    collectPostingLists dict a terms =
      some (terms.filterMap (fun t =>
        match analyze a t with
        | [] => none
        | token :: _ => anyFieldLookup dict token)) := by
  induction terms with
  | nil => simp [collectPostingLists]
  | cons t rest ih =>
    have hrest := ih (fun t2 h2 => h t2 (List.mem_cons_of_mem t h2))
    cases ht : analyze a t with
    | nil => simp [collectPostingLists, ht, hrest]
    | cons tok toks =>
      have hs := h t (List.mem_cons_self t rest) (by simp [ht])
      rw [ht] at hs
      simp only [List.headI] at hs
      obtain ⟨pl, hpl⟩ := Option.isSome_iff_exists.mp hs
      simp [collectPostingLists, ht, hpl, hrest]

/-- C4 counterexample: `"the"` analyzes to no token, so the claim says
`SearchMultipleTerms(["the", "novel"])` returns an empty posting list —
but the source skips such terms (`continue`), so the query returns the
posting list for `novel`, containing document `"1"`. -/
theorem searchMultipleTerms_stopword_counterexample :
    (exIdxNovel.searchMultipleTerms [("the").data, ("novel").data]).map
      PostingList.getDocIDs = some ["1"] ∧
    analyze exIdxNovel.analyzer (("the").data) = [] := by
  constructor
  · rfl
  · rfl

/-- C4 amended: terms whose analysis yields no token are skipped; if any
remaining term has no any-field match the query returns an empty posting
list, otherwise it returns the intersection of the retrieved lists (and
an empty result when every term was skipped). -/
theorem searchMultipleTerms_spec (idx : InvertedIndex) (terms : List Str)
    (hne : terms ≠ []) :
    ∃ r, idx.searchMultipleTerms terms = some r ∧
      ((∃ t ∈ terms, analyze idx.analyzer t ≠ [] ∧
          anyFieldLookup idx.termDict ((analyze idx.analyzer t).headI) = none) →
        r = newPostingList) ∧
      ((∀ t ∈ terms, analyze idx.analyzer t ≠ [] →
          (anyFieldLookup idx.termDict ((analyze idx.analyzer t).headI)).isSome) →
        r = intersectPostingLists (terms.filterMap (fun t =>
          match analyze idx.analyzer t with
          | [] => none
          | token :: _ => anyFieldLookup idx.termDict token))) := by
  cases hc : collectPostingLists idx.termDict idx.analyzer terms with
  | none =>
    refine ⟨newPostingList, ?_, fun _ => rfl, ?_⟩
    · simp [InvertedIndex.searchMultipleTerms, hne, hc]
    · intro hall
      rw [collect_eq_some_of_all idx.termDict idx.analyzer terms hall] at hc
      cases hc
  | some ls =>
    refine ⟨intersectPostingLists ls, ?_, ?_, ?_⟩
    · simp [InvertedIndex.searchMultipleTerms, hne, hc]
    · intro hex
      rw [(collect_eq_none_iff idx.termDict idx.analyzer terms).mpr hex] at hc
      cases hc
    · intro hall
      rw [collect_eq_some_of_all idx.termDict idx.analyzer terms hall] at hc
      cases hc
      rfl

/-- C4 witness: the amended statement evaluated on `exIdxNovel` with the
unmatched term `"missing"`, giving the empty result. -/
theorem searchMultipleTerms_spec_witness :
    ∃ r, exIdxNovel.searchMultipleTerms [("missing").data, ("novel").data] =
        some r ∧ r = newPostingList := by
  obtain ⟨r, hr, hmiss, hall⟩ :=
    searchMultipleTerms_spec exIdxNovel
      [("missing").data, ("novel").data] (by decide)
  exact ⟨r, hr, hmiss (by decide)⟩

theorem mem_docIDs_intersect_pair (x y : PostingList) (docID : String) :
    docID ∈ (intersectPostingLists [x, y]).getDocIDs ↔
      docID ∈ x.getDocIDs ∧ docID ∈ y.getDocIDs := by
  simp only [intersectPostingLists, PostingList.getDocIDs,
    PostingList.getPosting, List.all_cons, List.all_nil, Bool.and_true,
    List.mem_map, List.mem_filter]
  constructor
  · rintro ⟨p, ⟨hp, hsome⟩, rfl⟩
    refine ⟨⟨p, hp, rfl⟩, ?_⟩
    obtain ⟨q, hq, hqd⟩ := List.find?_isSome.mp hsome
    exact ⟨q, hq, of_decide_eq_true hqd⟩
  · rintro ⟨⟨p, hp, rfl⟩, ⟨q, hq, hqd⟩⟩
    refine ⟨p, ⟨hp, ?_⟩, rfl⟩
    exact List.find?_isSome.mpr ⟨q, hq, decide_eq_true hqd⟩

/-- C5: for any index state and any two terms, the two orders of a
two-term AND query return posting lists holding the same set of document
IDs. -/
theorem searchMultipleTerms_comm (idx : InvertedIndex) (a b : Str) :
    ∃ r1 r2, idx.searchMultipleTerms [a, b] = some r1 ∧
      idx.searchMultipleTerms [b, a] = some r2 ∧
      ∀ docID, docID ∈ r1.getDocIDs ↔ docID ∈ r2.getDocIDs := by
  rcases ha : analyze idx.analyzer a with _ | ⟨ta, tas⟩ <;>
    rcases hb : analyze idx.analyzer b with _ | ⟨tb, tbs⟩
  · exact ⟨newPostingList, newPostingList,
      by simp [InvertedIndex.searchMultipleTerms, collectPostingLists, ha, hb,
        intersectPostingLists],
      by simp [InvertedIndex.searchMultipleTerms, collectPostingLists, ha, hb,
        intersectPostingLists],
      fun d => Iff.rfl⟩
  · cases hlb : anyFieldLookup idx.termDict tb with
    | none =>
      exact ⟨newPostingList, newPostingList,
        by simp [InvertedIndex.searchMultipleTerms, collectPostingLists,
          ha, hb, hlb],
        by simp [InvertedIndex.searchMultipleTerms, collectPostingLists,
          ha, hb, hlb],
        fun d => Iff.rfl⟩
    | some plb =>
      exact ⟨plb, plb,
        by simp [InvertedIndex.searchMultipleTerms, collectPostingLists,
          ha, hb, hlb, intersectPostingLists],
        by simp [InvertedIndex.searchMultipleTerms, collectPostingLists,
          ha, hb, hlb, intersectPostingLists],
        fun d => Iff.rfl⟩
  · cases hla : anyFieldLookup idx.termDict ta with
    | none =>
      exact ⟨newPostingList, newPostingList,
        by simp [InvertedIndex.searchMultipleTerms, collectPostingLists,
          ha, hb, hla],
        by simp [InvertedIndex.searchMultipleTerms, collectPostingLists,
          ha, hb, hla],
        fun d => Iff.rfl⟩
    | some pla =>
      exact ⟨pla, pla,
        by simp [InvertedIndex.searchMultipleTerms, collectPostingLists,
          ha, hb, hla, intersectPostingLists],
        by simp [InvertedIndex.searchMultipleTerms, collectPostingLists,
          ha, hb, hla, intersectPostingLists],
        fun d => Iff.rfl⟩
  · cases hla : anyFieldLookup idx.termDict ta with
    | none =>
      cases hlb : anyFieldLookup idx.termDict tb with
      | none =>
        exact ⟨newPostingList, newPostingList,
          by simp [InvertedIndex.searchMultipleTerms, collectPostingLists,
            ha, hb, hla, hlb],
          by simp [InvertedIndex.searchMultipleTerms, collectPostingLists,
            ha, hb, hla, hlb],
          fun d => Iff.rfl⟩
      | some plb =>
        exact ⟨newPostingList, newPostingList,
          by simp [InvertedIndex.searchMultipleTerms, collectPostingLists,
            ha, hb, hla, hlb],
          by simp [InvertedIndex.searchMultipleTerms, collectPostingLists,
            ha, hb, hla, hlb],
          fun d => Iff.rfl⟩
    | some pla =>
      cases hlb : anyFieldLookup idx.termDict tb with
      | none =>
        exact ⟨newPostingList, newPostingList,
          by simp [InvertedIndex.searchMultipleTerms, collectPostingLists,
            ha, hb, hla, hlb],
          by simp [InvertedIndex.searchMultipleTerms, collectPostingLists,
            ha, hb, hla, hlb],
          fun d => Iff.rfl⟩
      | some plb =>
        refine ⟨intersectPostingLists [pla, plb],
          intersectPostingLists [plb, pla], ?_, ?_, ?_⟩
        · simp [InvertedIndex.searchMultipleTerms, collectPostingLists,
            ha, hb, hla, hlb]
        · simp [InvertedIndex.searchMultipleTerms, collectPostingLists,
            ha, hb, hla, hlb]
        · intro d
          rw [mem_docIDs_intersect_pair, mem_docIDs_intersect_pair, and_comm]

theorem findSome?_isSome_iff {α β : Type} (f : α → Option β) (l : List α) :
    (List.findSome? f l).isSome ↔ ∃ x ∈ l, (f x).isSome := by
  induction l with
  | nil => simp
  | cons a rest ih =>
    rw [List.findSome?_cons]
    cases h : f a with
    | none => simp [h, ih]
    | some b => simp [h]

theorem validateField_isSome_iff (s : Schema) (name : String)
    (v : FieldValue) :
    (validateField s name v).isSome ↔ fieldViolation s name v := by
  unfold validateField fieldViolation
  cases hf : s.getField name with
  | none => simp
  | some fd =>
    dsimp only
    by_cases ht : v.typeOf = fd.type
    · rw [if_neg (by simp [ht])]
      by_cases hv : fd.type = .vector
      · rw [if_pos hv]
        cases v with
        | vector data dim =>
          dsimp only
          by_cases hd : dim = fd.vectorDim
          · simp [hd, ht, hv, FieldValue.typeOf]
          · rw [if_pos hd]
            simp only [Option.isSome_some, true_iff]
            exact ⟨fd, rfl, Or.inr ⟨hv, data, dim, rfl, hd⟩⟩
        | text t => rw [← ht] at hv; cases hv
        | keyword t => rw [← ht] at hv; cases hv
        | numeric q => rw [← ht] at hv; cases hv
        | boolean b => rw [← ht] at hv; cases hv
        | date t => rw [← ht] at hv; cases hv
      · rw [if_neg hv]
        simp only [Option.isSome_none, Bool.false_eq_true, false_iff]
        rintro ⟨fd2, hfd2, hbad⟩
        rw [Option.some.injEq] at hfd2
        subst hfd2
        rcases hbad with hbad | ⟨hbad, _⟩
        · exact hbad ht
        · exact hv hbad
    · rw [if_pos ht]
      simp only [Option.isSome_some, true_iff]
      exact ⟨fd, rfl, Or.inl ht⟩

theorem validateDocument_isSome_iff (s : Schema) (d : Document) :
    (s.validateDocument d).isSome ↔
      ∃ kv ∈ d.fields, fieldViolation s kv.1 kv.2 := by
  unfold Schema.validateDocument
  rw [findSome?_isSome_iff]
  constructor
  · rintro ⟨kv, hkv, h⟩
    exact ⟨kv, hkv, (validateField_isSome_iff s kv.1 kv.2).mp h⟩
  · rintro ⟨kv, hkv, h⟩
    exact ⟨kv, hkv, (validateField_isSome_iff s kv.1 kv.2).mpr h⟩

/-- C7 counterexample: against a schema declaring a 3-dimensional vector
field, a document whose vector value has length 1 but `Dim` tag 3 passes
validation and `WriteDocument` succeeds — the source compares the
carrier's `Dim` field with the declared dimension, never the value's
length, so the claim's "value length differs from the declared
dimension implies a SchemaValidation error" is false. -/
theorem vectorDim_counterexample :
    exSchemaVec.validateDocument exDocVec = none ∧
    (exIM.writeDocument exDocVec 0).isOk = true ∧
    exDocVec.fields = [("v", .vector [1] 3)] ∧
    (exSchemaVec.getField "v").map (fun fd => fd.vectorDim) = some 3 ∧
    ([(1 : Rat)]).length = 1 := by
  refine ⟨rfl, ?_, rfl, rfl, rfl⟩
  rfl

/-- C7 amended: `IndexManager.WriteDocument` returns a SchemaValidation
error exactly when some field carried by the document and declared in
the schema has a mismatching type, or some declared vector field's value
carries a `Dim` tag different from the schema-declared dimension (the
value's length is not checked); documents carrying only undeclared
fields always pass. -/
theorem writeDocument_schemaValidation_iff (im : IndexManager)
    (d : Document) (ts : Int) :
    (∃ e, im.writeDocument d ts = .error (.schemaValidation e)) ↔
      ∃ kv ∈ d.fields, fieldViolation im.schema kv.1 kv.2 := by
  have hiff := validateDocument_isSome_iff im.schema d
  cases hv : im.schema.validateDocument d with
  | some e =>
    constructor
    · intro _
      exact hiff.mp (by simp [hv])
    · intro _
      exact ⟨e, by simp [IndexManager.writeDocument, hv]⟩
  | none =>
    constructor
    · rintro ⟨e, he⟩
      exfalso
      simp only [IndexManager.writeDocument, hv] at he
      cases hseg : im.segments.getLast? <;> rw [hseg] at he <;> cases he
    · intro hex
      exfalso
      have := hiff.mpr hex
      rw [hv] at this
      cases this

/-- C3: writing any inverted index holding a posting with a nonempty
positions list fails: Go's `binary.Write` rejects `[]int` as not
fixed-size, so `IndexSegment.Write` returns its error instead of
emitting position bytes.  The second conjunct exhibits the nonempty
positions of the failing input. -/
theorem indexSegment_write_positions_error :
    IndexSegment.write exIdxHello =
      .error "binary.Write: invalid type []int" ∧
    (dictLookup exIdxHello.termDict (("title:hello").data)).map
      (fun pl => pl.postings.map (·.positions)) = some [[0]] := by
  constructor
  · rfl
  · rfl

theorem wal_writeAll_props (reqs : List WALWriteReq) : ∀ (w : WALState),
    w.sequence + reqs.length < uint64Mod →
    (WAL.writeAll w reqs).sequence = w.sequence + reqs.length ∧
    (WAL.writeAll w reqs).entries.map (·.sequence) =
      w.entries.map (·.sequence) ++ List.range' (w.sequence + 1) reqs.length ∧
    (WAL.writeAll w reqs).hdrSequence =
      (if reqs.length = 0 then w.hdrSequence
       else w.sequence + reqs.length) := by
  induction reqs with
  | nil =>
    intro w h
    simp [WAL.writeAll]
  | cons r rest ih =>
    intro w h
    rw [List.length_cons] at h
    have hmod : (w.sequence + 1) % uint64Mod = w.sequence + 1 :=
      Nat.mod_eq_of_lt (by omega)
    have hall : WAL.writeAll w (r :: rest) =
        WAL.writeAll (WAL.writeEntry w r) rest := rfl
    have hseq : (WAL.writeEntry w r).sequence = w.sequence + 1 := by
      simp [WAL.writeEntry, hmod]
    have hhdr : (WAL.writeEntry w r).hdrSequence = w.sequence + 1 := by
      simp [WAL.writeEntry, hmod]
    have hent : (WAL.writeEntry w r).entries.map (·.sequence) =
        w.entries.map (·.sequence) ++ [w.sequence + 1] := by
      simp [WAL.writeEntry, hmod]
    obtain ⟨ih1, ih2, ih3⟩ := ih (WAL.writeEntry w r) (by rw [hseq]; omega)
    refine ⟨?_, ?_, ?_⟩
    · rw [hall, ih1, hseq, List.length_cons]
      omega
    · rw [hall, ih2, hent, hseq, List.length_cons, List.append_assoc]
      congr 1
    · rw [hall, ih3, hseq, hhdr, List.length_cons,
        if_neg (show ¬(rest.length + 1 = 0) from by omega)]
      split <;> omega

theorem foldr_max_range' (n : Nat) : ∀ (a : Nat),
    (List.range' (a + 1) n).foldr max 0 = if n = 0 then 0 else a + n := by
  induction n with
  | zero => intro a; simp
  | succ m ih =>
    intro a
    rw [List.range'_succ, List.foldr_cons, ih (a + 1)]
    cases m with
    | zero => simp
    | succ k =>
      simp only [Nat.succ_ne_zero, if_false]
      omega

/-- C2: starting from a freshly opened empty WAL, after each prefix of a
run of `WriteEntry` calls the entry sequences written to the file are
exactly `1, 2, …, k` — a strictly increasing contiguous run starting at
1 — and the header's stored sequence equals the maximum entry sequence
written so far.  (The `uint64` counter is modelled with its wrap at
`2^64`; the hypothesis keeps the run below it.) -/
theorem wal_sequences (reqs : List WALWriteReq) (k : Nat)
    (h : reqs.length < uint64Mod) (hk : k ≤ reqs.length) :
    ((WAL.writeAll walFresh (reqs.take k)).entries.map (·.sequence) =
      List.range' 1 k) ∧
    (WAL.writeAll walFresh (reqs.take k)).hdrSequence =
      ((WAL.writeAll walFresh (reqs.take k)).entries.map
        (·.sequence)).foldr max 0 := by
  have hlen : (reqs.take k).length = k := by
    rw [List.length_take]
    omega
  obtain ⟨h1, h2, h3⟩ := wal_writeAll_props (reqs.take k) walFresh
    (by rw [hlen]; show 0 + k < uint64Mod; omega)
  rw [hlen] at h2 h3
  have hmap : (WAL.writeAll walFresh (reqs.take k)).entries.map
      (·.sequence) = List.range' 1 k := by
    rw [h2]
    simp [walFresh]
  refine ⟨hmap, ?_⟩
  rw [hmap, h3]
  have := foldr_max_range' k 0
  simp only [Nat.zero_add] at this
  rw [this]
  cases k with
  | zero => simp [walFresh]
  | succ m => simp [walFresh]

/-- C2 witness: the statement evaluated on the first two of the three
example requests. -/
theorem wal_sequences_witness :
    ((WAL.writeAll walFresh (exReqs.take 2)).entries.map (·.sequence) =
      List.range' 1 2) ∧
    (WAL.writeAll walFresh (exReqs.take 2)).hdrSequence =
      ((WAL.writeAll walFresh (exReqs.take 2)).entries.map
        (·.sequence)).foldr max 0 :=
  wal_sequences exReqs 2 (by decide) (by decide)

/-- C10: `IndexManager.ReadDocument` treats every per-segment failure —
missing ID, I/O error or corruption alike — as a miss and falls through
to the next older segment; only after every segment has failed does it
return the generic not-found error, never the underlying segment error,
and otherwise it returns the newest segment's hit. -/
theorem readDocument_error_fallthrough
    (results : List (Except SegReadError Document)) (id : String)
    (d : Document) (l1 l2 : List (Except SegReadError Document)) :
    ((∀ r ∈ results, ∃ e, r = .error e) →
      IndexManager.readDocumentFrom results id =
        .error ("document not found: " ++ id)) ∧
    ((∀ r ∈ l2, ∃ e, r = .error e) →
      IndexManager.readDocumentFrom (l1 ++ .ok d :: l2) id = .ok d) := by
  constructor
  · intro h
    unfold IndexManager.readDocumentFrom scanNewestFirst
    have hall : ∀ r ∈ results.reverse,
        (match r with
         | .ok d => some d
         | .error _ => (none : Option Document)) = none := by
      intro r hr
      obtain ⟨e, rfl⟩ := h r (List.mem_reverse.mp hr)
      rfl
    rw [List.findSome?_eq_none_iff.mpr hall]
  · intro h
    unfold IndexManager.readDocumentFrom scanNewestFirst
    have hl2 : List.findSome? (fun r =>
        (match r with
         | .ok d => some d
         | .error _ => (none : Option Document))) l2.reverse = none := by
      apply List.findSome?_eq_none_iff.mpr
      intro r hr
      obtain ⟨e, rfl⟩ := h r (List.mem_reverse.mp hr)
      rfl
    rw [List.reverse_append, List.reverse_cons, List.findSome?_append,
      List.findSome?_append, hl2]
    rfl

/-- C10 witness: three all-failing segments (an I/O failure, a corrupt
record, a miss) produce the generic not-found error; with a hit in the
middle of the failures the newest successful segment's document is
returned. -/
theorem readDocument_error_fallthrough_witness :
    IndexManager.readDocumentFrom
      [.error (.ioFailure "seek failed"), .error (.corruption "bad json"),
       .error (.notFound "missing")] "1" =
      .error ("document not found: " ++ "1") ∧
    IndexManager.readDocumentFrom
      ([.error (.notFound "old")] ++ .ok exDocA ::
        [.error (.ioFailure "seek failed"),
         .error (.corruption "bad json")]) "1" = .ok exDocA := by
  constructor
  · refine (readDocument_error_fallthrough
      [.error (.ioFailure "seek failed"), .error (.corruption "bad json"),
       .error (.notFound "missing")] "1" exDocA [] []).1 ?_
    intro r hr
    simp only [List.mem_cons, List.not_mem_nil, or_false] at hr
    rcases hr with rfl | rfl | rfl
    · exact ⟨_, rfl⟩
    · exact ⟨_, rfl⟩
    · exact ⟨_, rfl⟩
  · refine (readDocument_error_fallthrough [] "1" exDocA
      [.error (.notFound "old")]
      [.error (.ioFailure "seek failed"),
       .error (.corruption "bad json")]).2 ?_
    intro r hr
    simp only [List.mem_cons, List.not_mem_nil, or_false] at hr
    rcases hr with rfl | rfl
    · exact ⟨_, rfl⟩
    · exact ⟨_, rfl⟩

theorem offLookup_offInsert_self (m : List (String × Int)) (id : String)
    (off : Int) : offLookup (offInsert m id off) id = some off := by
  induction m with
  | nil => simp [offInsert, offLookup]
  | cons kv rest ih =>
    by_cases h : kv.1 = id
    · simp [offInsert, offLookup, h]
    · simp only [offInsert, if_neg h, offLookup, List.find?_cons]
      have hdec : (decide (kv.1 = id)) = false := by simp [h]
      rw [hdec]
      exact ih

/-- C6: the record placement of `Segment.WriteDocument`: a file of
exactly the header size gets the record at `headerSize`; otherwise a
positive header `index_offset` makes the file be truncated to
`index_offset` with the record written there; otherwise the record is
appended at the end of the file.  In each case the in-memory map gets
the document's ID bound to that write offset. -/
theorem writeDocument_offset (s : SegmentState) (d : Document) :
    (s.file.size = segHeaderSize →
      offLookup (Segment.writeDocument s d).docIndex d.id =
        some segHeaderSize ∧
      (Segment.writeDocument s d).file.records =
        s.file.records ++ [(segHeaderSize, marshalDocument d)]) ∧
    (s.file.size ≠ segHeaderSize → 0 < s.file.hdrIndexOffset →
      offLookup (Segment.writeDocument s d).docIndex d.id =
        some s.file.hdrIndexOffset ∧
      (Segment.writeDocument s d).file.records =
        truncateRecords s.file.records s.file.hdrIndexOffset ++
          [(s.file.hdrIndexOffset, marshalDocument d)]) ∧
    (s.file.size ≠ segHeaderSize → ¬ 0 < s.file.hdrIndexOffset →
      offLookup (Segment.writeDocument s d).docIndex d.id =
        some s.file.size ∧
      (Segment.writeDocument s d).file.records =
        s.file.records ++ [(s.file.size, marshalDocument d)]) := by
  refine ⟨?_, ?_, ?_⟩
  · intro h
    unfold Segment.writeDocument
    rw [if_pos h]
    exact ⟨offLookup_offInsert_self _ _ _, rfl⟩
  · intro h1 h2
    unfold Segment.writeDocument
    rw [if_neg h1, if_pos h2]
    exact ⟨offLookup_offInsert_self _ _ _, rfl⟩
  · intro h1 h2
    unfold Segment.writeDocument
    rw [if_neg h1, if_neg h2]
    exact ⟨offLookup_offInsert_self _ _ _, rfl⟩

/-- C6 witness: on the fresh segment the first record lands at the
header size; after a flush the next write lands at the flushed
`index_offset`. -/
theorem writeDocument_offset_witness :
    offLookup (Segment.writeDocument (freshSegment 0) exDocA).docIndex
      exDocA.id = some segHeaderSize ∧
    offLookup (Segment.writeDocument
        (Segment.flush (Segment.writeDocument (freshSegment 0) exDocA))
        exDocA).docIndex exDocA.id =
      some (Segment.flush (Segment.writeDocument (freshSegment 0)
        exDocA)).file.hdrIndexOffset :=
  ⟨((writeDocument_offset (freshSegment 0) exDocA).1 rfl).1,
   ((writeDocument_offset
      (Segment.flush (Segment.writeDocument (freshSegment 0) exDocA))
      exDocA).2.1 (by decide) (by decide)).1⟩

theorem unmarshalFieldValue_marshal (v : FieldValue) :
    unmarshalFieldValue v.typeOf.name (marshalFieldValue v) =
      roundtripField v := by
  cases v <;> rfl

theorem decodeFieldObjs_marshal (fs : List (String × FieldValue)) :
    decodeFieldObjs (fs.map (fun kv =>
      (kv.1, Jval.jobj [("type", Jval.jstr kv.2.typeOf.name),
                        ("value", marshalFieldValue kv.2)]))) =
    .ok (fs.map (fun kv =>
      (kv.1, [("type", Jval.jstr kv.2.typeOf.name),
              ("value", marshalFieldValue kv.2)]))) := by
  induction fs with
  | nil => rfl
  | cons kv rest ih => simp [decodeFieldObjs, ih, Except.map]

theorem decodeFields_marshal (fs : List (String × FieldValue)) :
    decodeFields (fs.map (fun kv =>
      (kv.1, [("type", Jval.jstr kv.2.typeOf.name),
              ("value", marshalFieldValue kv.2)]))) =
    .ok (fs.filterMap (fun kv =>
      (roundtripField kv.2).map (fun fv => (kv.1, fv)))) := by
  induction fs with
  | nil => rfl
  | cons kv rest ih =>
    have hty : jGet [("type", Jval.jstr kv.2.typeOf.name),
        ("value", marshalFieldValue kv.2)] "type" =
        some (.jstr kv.2.typeOf.name) := rfl
    have hval : (jGet [("type", Jval.jstr kv.2.typeOf.name),
        ("value", marshalFieldValue kv.2)] "value").getD .jnull =
        marshalFieldValue kv.2 := rfl
    simp only [List.map_cons, decodeFields, hty, hval,
      unmarshalFieldValue_marshal, ih, List.filterMap_cons]
    cases hv : roundtripField kv.2 <;> simp [hv, Except.map]

/-- The document JSON codec round trip: decoding the encoding of a
document keeps its ID, version and timestamps and exactly the fields
`UnmarshalJSON` has a switch case for. -/
theorem unmarshal_marshal (d : Document) :
    unmarshalDocument (marshalDocument d) = .ok (roundtripDocument d) := by
  have h : unmarshalDocument (marshalDocument d) =
      (decodeFieldObjs (d.fields.map (fun kv =>
        (kv.1, Jval.jobj [("type", Jval.jstr kv.2.typeOf.name),
                          ("value", marshalFieldValue kv.2)])))).bind
        (fun rawFields => (decodeFields rawFields).bind
          (fun fields => Except.ok
            { id := d.id
              fields := fields
              version := d.version
              created := d.created
              updated := d.updated })) := rfl
  rw [h, decodeFieldObjs_marshal]
  show (decodeFields _).bind _ = _
  rw [decodeFields_marshal]
  rfl

theorem recLen_ge (j : Jval) : 4 ≤ recLen j := by
  unfold recLen
  omega

theorem tailLen_ge (m : List (String × Int)) : 4 ≤ tailLen m := by
  unfold tailLen
  omega

theorem spacedEnd_append (a : Int) (rs : List (Int × Jval)) (o : Int)
    (j : Jval) : spacedEnd a (rs ++ [(o, j)]) = o + recLen j := by
  induction rs generalizing a with
  | nil => rfl
  | cons r rest ih => simp [spacedEnd, ih]

theorem recSpaced_le_end (a : Int) (rs : List (Int × Jval))
    (h : RecSpaced a rs) : a ≤ spacedEnd a rs := by
  induction h with
  | nil a2 => exact le_refl a2
  | cons a2 r rest hle hrest ih =>
    have := recLen_ge r.2
    show a2 ≤ spacedEnd (r.1 + recLen r.2) rest
    omega

theorem recSpaced_extent (a : Int) (rs : List (Int × Jval))
    (h : RecSpaced a rs) :
    ∀ x ∈ rs, x.1 + recLen x.2 ≤ spacedEnd a rs := by
  induction h with
  | nil a2 => simp
  | cons a2 r rest hle hrest ih =>
    intro x hx
    rcases List.mem_cons.mp hx with rfl | hx
    · exact recSpaced_le_end _ rest hrest
    · exact ih x hx

theorem recSpaced_append (a : Int) (rs : List (Int × Jval)) (o : Int)
    (j : Jval) (h : RecSpaced a rs) (ho : spacedEnd a rs ≤ o) :
    RecSpaced a (rs ++ [(o, j)]) := by
  induction h with
  | nil a2 =>
    exact .cons a2 (o, j) [] ho (.nil _)
  | cons a2 r rest hle hrest ih =>
    exact .cons a2 r (rest ++ [(o, j)]) hle (ih ho)

theorem truncate_of_spaced (a t : Int) (rs : List (Int × Jval))
    (h : RecSpaced a rs) (ht : spacedEnd a rs ≤ t) :
    truncateRecords rs t = rs := by
  apply List.filter_eq_self.mpr
  intro r hr
  have hext := recSpaced_extent a rs h r hr
  simp only [decide_eq_true_eq]
  omega

theorem no_record_at_end (a o : Int) (rs : List (Int × Jval))
    (h : RecSpaced a rs) (ho : spacedEnd a rs ≤ o) :
    rs.find? (fun r => r.1 = o) = none := by
  apply List.find?_eq_none.mpr
  intro x hx
  have hext := recSpaced_extent a rs h x hx
  have hpos := recLen_ge x.2
  simp only [decide_eq_true_eq]
  omega

/-- The effect of one `WriteDocument` on a well-formed segment: the new
record is appended at `segWriteOffset` — which sits at or past the end
of the record region — the in-memory map is updated to it, and
well-formedness is maintained. -/
theorem writeDocument_step (s : SegmentState) (d : Document)
    (hg : SegGood s) :
    SegGood (Segment.writeDocument s d) ∧
    (Segment.writeDocument s d).file.records =
      s.file.records ++ [(segWriteOffset s, marshalDocument d)] ∧
    (Segment.writeDocument s d).docIndex =
      offInsert s.docIndex d.id (segWriteOffset s) ∧
    spacedEnd segHeaderSize s.file.records ≤ segWriteOffset s := by
  obtain ⟨hsp, hlay⟩ := hg
  have hsh : segHeaderSize = 34 := rfl
  rcases hlay with ⟨hidx, hsize⟩ | ⟨hE, hpos, hsize, htail⟩
  · by_cases hrec : s.file.records = []
    · have hEnil : spacedEnd segHeaderSize s.file.records = segHeaderSize := by
        rw [hrec]
        rfl
      have hsz : s.file.size = segHeaderSize := by rw [hsize, hEnil]
      have hoff : segWriteOffset s = segHeaderSize := by
        unfold segWriteOffset
        rw [if_pos hsz]
      refine ⟨⟨?_, ?_⟩, ?_, ?_, ?_⟩
      · unfold Segment.writeDocument
        rw [if_pos hsz]
        show RecSpaced segHeaderSize
          (s.file.records ++ [(segHeaderSize, marshalDocument d)])
        rw [hrec]
        exact .cons _ _ [] (le_refl _) (.nil _)
      · left
        unfold Segment.writeDocument
        rw [if_pos hsz]
        refine ⟨rfl, ?_⟩
        show segHeaderSize + recLen (marshalDocument d) =
          spacedEnd segHeaderSize
            (s.file.records ++ [(segHeaderSize, marshalDocument d)])
        rw [spacedEnd_append]
      · unfold Segment.writeDocument
        rw [if_pos hsz, hoff]
        rfl
      · unfold Segment.writeDocument
        rw [if_pos hsz, hoff]
        rfl
      · rw [hoff, hEnil]
    · have hE4 : segHeaderSize + 4 ≤
          spacedEnd segHeaderSize s.file.records := by
        obtain ⟨r, rest, hcons⟩ := List.exists_cons_of_ne_nil hrec
        rw [hcons]
        have hsp2 : RecSpaced segHeaderSize (r :: rest) := by
          rw [← hcons]
          exact hsp
        cases hsp2 with
        | cons a2 r2 rest2 hle hrest =>
          have h1 := recSpaced_le_end _ _ hrest
          have h2 := recLen_ge r.2
          show segHeaderSize + 4 ≤ spacedEnd (r.1 + recLen r.2) rest
          omega
      have hsz : s.file.size ≠ segHeaderSize := by
        rw [hsize]
        omega
      have hoff : segWriteOffset s = s.file.size := by
        unfold segWriteOffset
        rw [if_neg hsz, if_neg (by rw [hidx]; exact lt_irrefl 0)]
      have hEoff : spacedEnd segHeaderSize s.file.records ≤
          segWriteOffset s := by
        rw [hoff, hsize]
      refine ⟨⟨?_, ?_⟩, ?_, ?_, hEoff⟩
      · unfold Segment.writeDocument
        rw [if_neg hsz, if_neg (by rw [hidx]; exact lt_irrefl 0)]
        show RecSpaced segHeaderSize
          (s.file.records ++ [(s.file.size, marshalDocument d)])
        exact recSpaced_append _ _ _ _ hsp (by rw [hsize])
      · left
        unfold Segment.writeDocument
        rw [if_neg hsz, if_neg (by rw [hidx]; exact lt_irrefl 0)]
        refine ⟨rfl, ?_⟩
        show s.file.size + recLen (marshalDocument d) =
          spacedEnd segHeaderSize
            (s.file.records ++ [(s.file.size, marshalDocument d)])
        rw [spacedEnd_append]
      · unfold Segment.writeDocument
        rw [if_neg hsz, if_neg (by rw [hidx]; exact lt_irrefl 0), hoff]
        rfl
      · unfold Segment.writeDocument
        rw [if_neg hsz, if_neg (by rw [hidx]; exact lt_irrefl 0), hoff]
        rfl
  · have hE34 := recSpaced_le_end _ _ hsp
    have htl := tailLen_ge s.docIndex
    have hsz : s.file.size ≠ segHeaderSize := by
      rw [hsize]
      omega
    have hoff : segWriteOffset s = s.file.hdrIndexOffset := by
      unfold segWriteOffset
      rw [if_neg hsz, if_pos hpos]
    have htrunc : truncateRecords s.file.records s.file.hdrIndexOffset =
        s.file.records := truncate_of_spaced _ _ _ hsp hE
    have hEoff : spacedEnd segHeaderSize s.file.records ≤
        segWriteOffset s := by
      rw [hoff]
      exact hE
    refine ⟨⟨?_, ?_⟩, ?_, ?_, hEoff⟩
    · unfold Segment.writeDocument
      rw [if_neg hsz, if_pos hpos]
      show RecSpaced segHeaderSize
        (truncateRecords s.file.records s.file.hdrIndexOffset ++
          [(s.file.hdrIndexOffset, marshalDocument d)])
      rw [htrunc]
      exact recSpaced_append _ _ _ _ hsp hE
    · left
      unfold Segment.writeDocument
      rw [if_neg hsz, if_pos hpos]
      refine ⟨rfl, ?_⟩
      show s.file.hdrIndexOffset + recLen (marshalDocument d) =
        spacedEnd segHeaderSize
          (truncateRecords s.file.records s.file.hdrIndexOffset ++
            [(s.file.hdrIndexOffset, marshalDocument d)])
      rw [htrunc, spacedEnd_append]
    · unfold Segment.writeDocument
      rw [if_neg hsz, if_pos hpos, htrunc, hoff]
      rfl
    · unfold Segment.writeDocument
      rw [if_neg hsz, if_pos hpos, hoff]
      rfl

theorem recordAt_writeDocument_new (s : SegmentState) (d : Document)
    (hg : SegGood s) :
    recordAt (Segment.writeDocument s d) (segWriteOffset s) =
      some (marshalDocument d) := by
  obtain ⟨_, hrecs, _, hEoff⟩ := writeDocument_step s d hg
  unfold recordAt
  rw [hrecs, List.find?_append, no_record_at_end segHeaderSize _ _ hg.1 hEoff]
  simp

theorem recordAt_writeDocument_mono (s : SegmentState) (d : Document)
    (off0 : Int) (j0 : Jval) (hg : SegGood s)
    (h : recordAt s off0 = some j0) :
    recordAt (Segment.writeDocument s d) off0 = some j0 := by
  obtain ⟨_, hrecs, _, _⟩ := writeDocument_step s d hg
  unfold recordAt at h ⊢
  rw [hrecs, List.find?_append]
  obtain ⟨x, hx, hx2⟩ := Option.map_eq_some'.mp h
  rw [hx]
  simp [hx2]

theorem flush_step (s : SegmentState) (hg : SegGood s) :
    SegGood (Segment.flush s) ∧
    0 < (Segment.flush s).file.hdrIndexOffset ∧
    (Segment.flush s).file.tail = s.docIndex ∧
    (Segment.flush s).file.records = s.file.records ∧
    (Segment.flush s).docIndex = s.docIndex := by
  obtain ⟨hsp, hlay⟩ := hg
  have hsh : segHeaderSize = 34 := rfl
  have hE34 := recSpaced_le_end _ _ hsp
  have htl := tailLen_ge s.docIndex
  have hidx : 0 < s.file.size := by
    rcases hlay with ⟨_, hsize⟩ | ⟨hE, hpos, hsize, _⟩
    · omega
    · omega
  have hEs : spacedEnd segHeaderSize s.file.records ≤ s.file.size := by
    rcases hlay with ⟨_, hsize⟩ | ⟨hE, hpos, hsize, _⟩
    · omega
    · omega
  exact ⟨⟨hsp, Or.inr ⟨hEs, hidx, rfl, rfl⟩⟩, hidx, rfl, rfl, rfl⟩

theorem close_open_step (s : SegmentState) (hg : SegGood s) :
    SegGood (Segment.openFile (Segment.close s)) ∧
    (Segment.openFile (Segment.close s)).docIndex = s.docIndex ∧
    (Segment.openFile (Segment.close s)).file.records =
      s.file.records := by
  obtain ⟨hfg, hfidx, hftail, hfrecs, hfdoc⟩ := flush_step s hg
  have hdi : (Segment.openFile (Segment.close s)).docIndex = s.docIndex := by
    show (if (Segment.flush s).file.hdrIndexOffset > 0 then
      (Segment.flush s).file.tail else []) = s.docIndex
    rw [if_pos hfidx, hftail]
  obtain ⟨hsp2, hlay2⟩ := hfg
  refine ⟨⟨hsp2, ?_⟩, hdi, hfrecs⟩
  rcases hlay2 with ⟨h0, _⟩ | ⟨hE, hpos, hsize, htail⟩
  · exfalso
    rw [h0] at hfidx
    exact lt_irrefl 0 hfidx
  · right
    refine ⟨hE, hpos, ?_, ?_⟩
    · show (Segment.flush s).file.size =
        (Segment.flush s).file.hdrIndexOffset +
          tailLen (Segment.openFile (Segment.close s)).docIndex
      rw [hdi, ← hfdoc]
      exact hsize
    · show (Segment.flush s).file.tail =
        (Segment.openFile (Segment.close s)).docIndex
      rw [hdi, htail]
      exact hfdoc

theorem offLookup_offInsert_ne (m : List (String × Int)) (id : String)
    (off : Int) (id2 : String) (h : ¬ id2 = id) :
    offLookup (offInsert m id off) id2 = offLookup m id2 := by
  have h2 : ¬ id = id2 := fun hh => h hh.symm
  induction m with
  | nil =>
    simp [offInsert, offLookup, h2]
  | cons kv rest ih =>
    by_cases hk : kv.1 = id
    · simp only [offInsert, if_pos hk, offLookup, List.find?_cons]
      have d1 : (decide (id = id2)) = false := by simp [h2]
      have d2 : (decide (kv.1 = id2)) = false := by
        rw [hk]
        exact d1
      rw [d1, d2]
    · simp only [offInsert, if_neg hk, offLookup, List.find?_cons]
      cases hd : decide (kv.1 = id2) with
      | true => rfl
      | false => exact ih

theorem writeAll_good (ds : List Document) : ∀ (s : SegmentState),
    SegGood s → SegGood (Segment.writeAll s ds) := by
  induction ds with
  | nil => exact fun s hg => hg
  | cons d0 rest ih =>
    intro s hg
    exact ih (Segment.writeDocument s d0) (writeDocument_step s d0 hg).1

theorem writeAll_tracked (ds : List Document) : ∀ (s : SegmentState),
    SegGood s → ∀ (id : String) (off : Int) (j : Jval),
    offLookup s.docIndex id = some off → recordAt s off = some j →
    (∀ d ∈ ds, d.id ≠ id) →
    offLookup (Segment.writeAll s ds).docIndex id = some off ∧
    recordAt (Segment.writeAll s ds) off = some j := by
  induction ds with
  | nil => exact fun s _ id off j hl hr _ => ⟨hl, hr⟩
  | cons d0 rest ih =>
    intro s hg id off j hl hr hids
    obtain ⟨hg2, hrecs, hdocidx, _⟩ := writeDocument_step s d0 hg
    have hl1 : offLookup (Segment.writeDocument s d0).docIndex id =
        some off := by
      rw [hdocidx, offLookup_offInsert_ne _ _ _ _
        (fun hh => hids d0 (List.mem_cons_self d0 rest) hh.symm)]
      exact hl
    have hr1 := recordAt_writeDocument_mono s d0 off j hg hr
    exact ih (Segment.writeDocument s d0) hg2 id off j hl1 hr1
      (fun d hd => hids d (List.mem_cons_of_mem d0 hd))

theorem writeAll_reads (ds : List Document) : ∀ (s : SegmentState),
    SegGood s → (ds.map (·.id)).Nodup → ∀ d ∈ ds,
    ∃ off, offLookup (Segment.writeAll s ds).docIndex d.id = some off ∧
      recordAt (Segment.writeAll s ds) off = some (marshalDocument d) := by
  induction ds with
  | nil => intro s _ _ d hd; cases hd
  | cons d0 rest ih =>
    intro s hg hnd d hd
    obtain ⟨hnotin, hndrest⟩ := List.nodup_cons.mp hnd
    obtain ⟨hg2, hrecs, hdocidx, _⟩ := writeDocument_step s d0 hg
    rcases List.mem_cons.mp hd with rfl | hd
    · refine ⟨segWriteOffset s, ?_⟩
      have hl1 : offLookup (Segment.writeDocument s d).docIndex d.id =
          some (segWriteOffset s) := by
        rw [hdocidx]
        exact offLookup_offInsert_self _ _ _
      have hr1 := recordAt_writeDocument_new s d hg
      have hids : ∀ d2 ∈ rest, d2.id ≠ d.id := by
        intro d2 hd2 he
        exact hnotin (List.mem_map.mpr ⟨d2, hd2, he⟩)
      exact writeAll_tracked rest (Segment.writeDocument s d) hg2
        d.id (segWriteOffset s) (marshalDocument d) hl1 hr1 hids
    · exact ih (Segment.writeDocument s d0) hg2 hndrest d hd

theorem freshSegment_good (created : Int) : SegGood (freshSegment created) :=
  ⟨.nil _, Or.inl ⟨rfl, rfl⟩⟩

theorem readDocument_of_tracked (s : SegmentState) (d : Document)
    (off : Int) (hl : offLookup s.docIndex d.id = some off)
    (hr : recordAt s off = some (marshalDocument d)) :
    Segment.readDocument s d.id = .ok (roundtripDocument d) := by
  unfold Segment.readDocument
  rw [hl]
  dsimp only
  rw [hr]
  dsimp only
  rw [unmarshal_marshal]

theorem roundtripField_of_isSome (v : FieldValue)
    (h : (roundtripField v).isSome) : roundtripField v = some v := by
  cases v <;> simp [roundtripField] <;> cases h

theorem roundtripDocument_of_supported (d : Document)
    (h : ∀ kv ∈ d.fields, (roundtripField kv.2).isSome) :
    roundtripDocument d = d := by
  have hfm : ∀ (l : List (String × FieldValue)),
      (∀ kv ∈ l, (roundtripField kv.2).isSome) →
      l.filterMap (fun kv =>
        (roundtripField kv.2).map (fun fv => (kv.1, fv))) = l := by
    intro l
    induction l with
    | nil => intro _; rfl
    | cons kv rest ih =>
      intro hall
      have hkv := roundtripField_of_isSome kv.2
        (hall kv (List.mem_cons_self kv rest))
      simp only [List.filterMap_cons, hkv, Option.map_some']
      rw [ih (fun kv2 hkv2 => hall kv2 (List.mem_cons_of_mem kv hkv2))]
  show { d with fields := _ } = d
  rw [hfm d.fields h]

/-- C1 counterexample: a document carrying a `date` field is not read
back equal to itself — `Document.UnmarshalJSON` has no switch case for
`date` (nor `vector`), so the field is silently dropped on the JSON
round trip through the segment. -/
theorem segment_roundtrip_date_counterexample :
    Segment.readDocument (Segment.writeDocument (freshSegment 0) exDocDate)
      ("9") = .ok { exDocDate with fields := [] } ∧
    ({ exDocDate with fields := [] } : Document) ≠ exDocDate := by
  constructor
  · rfl
  · decide

/-- C1 amended: for documents with pairwise distinct IDs written to a
fresh segment, reading any of them back — on the same open segment or
after `Close` (which persists the tail index) and `Open` of a fresh
instance — returns its JSON round trip, which preserves the document ID,
version, timestamps and every field of type text, keyword, numeric or
boolean, and drops fields of type vector or date; when all fields have
preserved types the document read equals the one written. -/
theorem segment_write_read_roundtrip (ds : List Document)
    (hnd : (ds.map (·.id)).Nodup) (created : Int) (d : Document)
    (hd : d ∈ ds) :
    Segment.readDocument (Segment.writeAll (freshSegment created) ds) d.id =
      .ok (roundtripDocument d) ∧
    Segment.readDocument
      (Segment.openFile (Segment.close (Segment.writeAll
        (freshSegment created) ds))) d.id = .ok (roundtripDocument d) ∧
    ((∀ kv ∈ d.fields, (roundtripField kv.2).isSome) →
      roundtripDocument d = d) := by
  have hg := freshSegment_good created
  obtain ⟨off, hl, hr⟩ := writeAll_reads ds (freshSegment created) hg hnd d hd
  have hga := writeAll_good ds (freshSegment created) hg
  obtain ⟨_, hdi, hrecs⟩ :=
    close_open_step (Segment.writeAll (freshSegment created) ds) hga
  refine ⟨readDocument_of_tracked _ d off hl hr, ?_,
    roundtripDocument_of_supported d⟩
  apply readDocument_of_tracked _ d off
  · rw [hdi]
    exact hl
  · unfold recordAt at hr ⊢
    rw [hrecs]
    exact hr

/-- C1 witness: a document with text, numeric and boolean fields is read
back unchanged, both on the open segment and after close and reopen. -/
theorem segment_write_read_roundtrip_witness :
    Segment.readDocument (Segment.writeAll (freshSegment 0) [exDocA])
      exDocA.id = .ok exDocA ∧
    Segment.readDocument (Segment.openFile (Segment.close
      (Segment.writeAll (freshSegment 0) [exDocA]))) exDocA.id =
      .ok exDocA := by
  obtain ⟨h1, h2, h3⟩ := segment_write_read_roundtrip [exDocA] (by decide) 0
    exDocA (by decide)
  rw [h3 (by decide)] at h1 h2
  exact ⟨h1, h2⟩

end NanoElastic
